import Mathlib

/-!
Verification of the boundary-tag allocator (src/allocator.c).

The C program works on a 4096-byte heap obtained from mmap.  Every tag
access in the program reads or writes a 2-byte `raw_boundary_t` at an even
byte offset (headers sit at block starts, which are 8-aligned; footers sit
at `start + length - 2` with `length` a multiple of 8), so two tag accesses
at distinct even offsets never overlap in memory.  We therefore model the
heap as a map from byte offsets to 16-bit words: `readTag h o` is the
2-byte little-endian integer stored at byte offset `o`.  All arithmetic is
on `Nat` with explicit `% 65536` where the C code truncates to `uint16`.

Loops are modelled with explicit fuel; `none` from a fueled loop means the
fuel ran out (the C loop would still be running).  `allocate` uses fuel
512, which is shown sufficient for every heap satisfying the structural
invariants (at most 511 blocks of length at least 8 plus the final test).
-/

set_option maxRecDepth 40000

def HEAP_SIZE : Nat := 4096

def HEAP_ALIGN : Nat := 8

/-- The unpacked form of a 2-byte boundary tag (struct boundary_t). -/
structure boundary_t where
  length : Nat
  p_alloc : Bool
  alloc : Bool
deriving DecidableEq, Repr

/-- C `pack`: `(length << 2) | (p_alloc << 1) | alloc` truncated to uint16.
Since the low two bits are disjoint from the shifted length, this equals
`(length % 2^14) * 4 + 2*p_alloc + alloc`. -/
def pack (b : boundary_t) : Nat :=
  b.length % 16384 * 4 + (cond b.p_alloc 1 0) * 2 + cond b.alloc 1 0

/-- C `unpack` of a uint16 raw tag: length is `raw >> 2`, the flags are the
low two bits.  Callers always pass a value `< 65536` (the result of
`readTag`). -/
def unpack (raw : Nat) : boundary_t :=
  ⟨raw / 4, decide (raw / 2 % 2 = 1), decide (raw % 2 = 1)⟩

/-- The heap: a map from even byte offsets to the 16-bit tag stored there. -/
def Heap : Type := Nat → Nat

/-- Read the 2-byte tag at byte offset `o` (a uint16). -/
def readTag (h : Heap) (o : Nat) : Nat := h o % 65536

/-- Store a 2-byte tag at byte offset `o`. -/
def writeTag (h : Heap) (o v : Nat) : Heap := fun j => if j = o then v else h j

/-- C `put_header`. -/
def put_header (h : Heap) (ptr : Nat) (b : boundary_t) : Heap :=
  writeTag h ptr (pack b)

/-- C `put_footer`: the footer lives at `ptr + length - sizeof(raw_boundary_t)`. -/
def put_footer (h : Heap) (ptr : Nat) (b : boundary_t) : Heap :=
  writeTag h (ptr + b.length - 2) (pack b)

/-- C `put_boundaries`: header always, footer only for free blocks. -/
def put_boundaries (h : Heap) (ptr : Nat) (b : boundary_t) : Heap :=
  if b.alloc then put_header h ptr b else put_footer (put_header h ptr b) ptr b

/-- C `struct allocator_t`: the heap plus the six statistics counters. -/
structure allocator_t where
  heap : Heap
  available : Nat
  allocations : Nat
  deallocations : Nat
  l_coalesce : Nat
  r_coalesce : Nat
  lr_coalesce : Nat

/-- C `allocator_reset`: write the initial two-block layout (one free block
of 4088 bytes, then the 8-byte epilogue), zero five counters and set
`available` to `HEAP_SIZE - HEAP_ALIGN`. -/
def allocator_reset (a : allocator_t) : allocator_t :=
  let h1 := put_boundaries a.heap 0 ⟨HEAP_SIZE - HEAP_ALIGN, true, false⟩
  let h2 := put_boundaries h1 (HEAP_SIZE - HEAP_ALIGN) ⟨HEAP_ALIGN, false, true⟩
  { heap := h2, available := HEAP_SIZE - HEAP_ALIGN,
    allocations := 0, deallocations := 0,
    l_coalesce := 0, r_coalesce := 0, lr_coalesce := 0 }

/-- C `allocator_init`: mmap returns a zero-initialized region, then reset. -/
def allocator_init : allocator_t :=
  allocator_reset
    { heap := fun _ => 0, available := 0, allocations := 0, deallocations := 0,
      l_coalesce := 0, r_coalesce := 0, lr_coalesce := 0 }

/-- C `padding`. -/
def padding (l : Nat) : Nat :=
  if l % HEAP_ALIGN = 0 then 0 else HEAP_ALIGN - l % HEAP_ALIGN

/-- C `pad_length` (returns uint16, hence the truncation). -/
def pad_length (l : Nat) : Nat := (l + padding l) % 65536

/-- C `update_p_alloc`: propagate this block's `alloc` bit into the next
block's `p_alloc`, unless this block is the last one in the heap. -/
def update_p_alloc (h : Heap) (ptr : Nat) (b : boundary_t) : Heap :=
  if HEAP_SIZE ≤ ptr + b.length then h
  else
    let n := unpack (readTag h (ptr + b.length))
    put_boundaries h (ptr + b.length) { n with p_alloc := b.alloc }

/-- The loop of C `allocate`, with explicit fuel.  Note that the C code
reassigns the `length` parameter at every free block it inspects
(`length = pad_length(length + sizeof(raw_boundary_t))`), which is
reproduced faithfully here (the inner `let length := ...`). -/
def allocateGo (st : allocator_t) : Nat → Nat → Nat → Option (allocator_t × Option Nat)
  | _, _, 0 => none
  | current, length, fuel + 1 =>
    if current < HEAP_SIZE - HEAP_ALIGN then
      let b := unpack (readTag st.heap current)
      if b.alloc then allocateGo st (current + b.length) length fuel
      else
        let length := pad_length ((length + 2) % 65536)
        if b.length < length then allocateGo st (current + b.length) length fuel
        else if b.length - length ≤ 4 then
          let b2 : boundary_t := { b with alloc := true }
          let h1 := put_boundaries st.heap current b2
          let h2 := update_p_alloc h1 current b2
          some ({ st with
                  heap := h2, available := st.available - b2.length,
                  allocations := st.allocations + 1 }, some (current + 2))
        else
          let nb : boundary_t := ⟨b.length - length, true, false⟩
          let h1 := put_boundaries st.heap (current + length) nb
          let b2 : boundary_t := ⟨length, b.p_alloc, true⟩
          let h2 := put_boundaries h1 current b2
          some ({ st with
                  heap := h2, available := st.available - b2.length,
                  allocations := st.allocations + 1 }, some (current + 2))
    else some (st, none)

/-- C `allocate`.  Fuel 512 is sufficient on every heap satisfying the
structural invariants; `getD` only matters on corrupted heaps on which the
C loop would not terminate. -/
def allocate (st : allocator_t) (length : Nat) : allocator_t × Option Nat :=
  if length = 0 then (st, none)
  else (allocateGo st 0 length 512).getD (st, none)

/-- C `deallocate`.  `none` is the NULL pointer; `some p` frees the block
whose header is at byte offset `p - 2`. -/
def deallocate (st : allocator_t) : Option Nat → allocator_t
  | none => st
  | some p =>
    let bptr := p - 2
    let b := unpack (readTag st.heap bptr)
    if b.alloc = false then st
    else if bptr = HEAP_SIZE - HEAP_ALIGN then st
    else
      let nb := unpack (readTag st.heap (bptr + b.length))
      if b.p_alloc && nb.alloc then
        let b2 : boundary_t := { b with alloc := false }
        let h1 := put_boundaries st.heap bptr b2
        let h2 := update_p_alloc h1 bptr b2
        { st with
          heap := h2, deallocations := st.deallocations + 1,
          available := st.available + b2.length }
      else if !b.p_alloc && nb.alloc then
        let pb := unpack (readTag st.heap (bptr - 2))
        let pstart := bptr - pb.length
        let b2 : boundary_t := ⟨b.length + pb.length, pb.p_alloc, false⟩
        let h1 := put_boundaries st.heap pstart b2
        let h2 := update_p_alloc h1 pstart b2
        { st with
          heap := h2, deallocations := st.deallocations + 1,
          l_coalesce := st.l_coalesce + 1, available := st.available + b2.length }
      else if b.p_alloc && !nb.alloc then
        let b2 : boundary_t := ⟨b.length + nb.length, b.p_alloc, false⟩
        let h1 := put_boundaries st.heap bptr b2
        { st with
          heap := h1, deallocations := st.deallocations + 1,
          r_coalesce := st.r_coalesce + 1, available := st.available + b2.length }
      else
        let pb := unpack (readTag st.heap (bptr - 2))
        let pstart := bptr - pb.length
        let b2 : boundary_t := ⟨b.length + pb.length + nb.length, pb.p_alloc, false⟩
        let h1 := put_boundaries st.heap pstart b2
        { st with
          heap := h1, deallocations := st.deallocations + 1,
          lr_coalesce := st.lr_coalesce + 1, available := st.available + b2.length }

/-- The loop of C `allocator_check`, with explicit fuel.  The result is
`true` exactly when every assert in the C function passes.  Fuel 4097 is
always sufficient: an iteration either advances `current` by at least one
byte or fails the `length != 0` check and returns `false`. -/
def checkGo (h : Heap) : Nat → Bool → Nat → Bool
  | _, _, 0 => false
  | current, p_alloc, fuel + 1 =>
    if current < HEAP_SIZE then
      let b := unpack (readTag h current)
      (b.length != 0) && (b.length % HEAP_ALIGN == 0) && (b.p_alloc == p_alloc) &&
        (b.alloc || (readTag h current == readTag h (current + b.length - 2))) &&
        checkGo h (current + b.length) b.alloc fuel
    else
      let e := unpack (readTag h (HEAP_SIZE - HEAP_ALIGN))
      (e.length == HEAP_ALIGN) && e.alloc

/-- C `allocator_check` as a boolean: `true` iff no assert fires. -/
def allocator_check (st : allocator_t) : Bool := checkGo st.heap 0 true 4097

/-! ## The abstract block model

A heap satisfying the structural invariants parses into a list of blocks.
`ReprSeg h off p bs e pE` says: starting at offset `off`, whose preceding
block has allocated-flag `p`, the heap stores exactly the blocks `bs` one
after another, ending exactly at offset `e` with final allocated-flag `pE`;
every block has a correct header, a positive 8-aligned length, and free
blocks carry a footer identical to the header.  The six invariants of the
specification are: `ReprSeg h 0 true bs 4088 pE` (invariants 1-4),
the epilogue tag fact (invariant 5 and the epilogue half of invariant 3),
and `noAdjFree false bs` (invariant 6). -/

structure Blk where
  len : Nat
  alloc : Bool
deriving DecidableEq, Repr

def ReprSeg (h : Heap) : Nat → Bool → List Blk → Nat → Bool → Bool
  | off, p, [], e, pE => (off == e) && (p == pE)
  | off, p, b :: bs, e, pE =>
    (readTag h off == pack ⟨b.len, p, b.alloc⟩) &&
      (b.alloc || (readTag h (off + b.len - 2) == pack ⟨b.len, p, b.alloc⟩)) &&
      (b.len != 0) && (b.len % 8 == 0) && decide (off + b.len ≤ e) &&
      ReprSeg h (off + b.len) b.alloc bs e pE

/-- Invariant 6: no two adjacent blocks are both free.  The flag is whether
the preceding block is free. -/
def noAdjFree : Bool → List Blk → Bool
  | _, [] => true
  | pf, b :: bs => (b.alloc || !pf) && noAdjFree (!b.alloc) bs

/-- Byte offsets of the starts of the allocated blocks of a block list laid
out from `off`. -/
def allocStarts : Nat → List Blk → List Nat
  | _, [] => []
  | off, b :: bs =>
    if b.alloc then off :: allocStarts (off + b.len) bs
    else allocStarts (off + b.len) bs

/-- The six structural invariants of the heap. -/
def HeapGood (h : Heap) : Prop :=
  ∃ bs pE, ReprSeg h 0 true bs 4088 pE = true ∧
    readTag h 4088 = pack ⟨8, pE, true⟩ ∧
    noAdjFree false bs = true

/-- The full inductive invariant: the heap invariants together with the
characterisation of the live pointers (each live pointer is payload
offset `start + 2` of a distinct allocated block). -/
def GoodState (s : allocator_t) (L : List Nat) : Prop :=
  ∃ bs pE, ReprSeg s.heap 0 true bs 4088 pE = true ∧
    readTag s.heap 4088 = pack ⟨8, pE, true⟩ ∧
    noAdjFree false bs = true ∧
    L.Nodup ∧ ∀ p ∈ L, 2 ≤ p ∧ (p - 2) ∈ allocStarts 0 bs

/-- Reachable allocator states, paired with the list of live pointers.
`deallocate` may only be applied to live pointers, as in the claims.
Allocation requests are bounded by 61438; larger requests can make the
16-bit computation `pad_length(length + 2)` wrap around to 0, which
corrupts the heap (see the counterexample to claim 1). -/
inductive Reach : allocator_t → List Nat → Prop where
  | init : Reach allocator_init []
  | allocOk : ∀ {s L n s2 p}, Reach s L → n ≤ 61438 →
      allocate s n = (s2, some p) → Reach s2 (p :: L)
  | allocFail : ∀ {s L n s2}, Reach s L → n ≤ 61438 →
      allocate s n = (s2, none) → Reach s2 L
  | dealloc : ∀ {s L p}, Reach s L → p ∈ L →
      Reach (deallocate s (some p)) (L.erase p)

/-! ## Basic lemmas about tags and heap accesses -/

theorem pack_lt (b : boundary_t) : pack b < 65536 := by
  unfold pack
  have h1 : b.length % 16384 < 16384 := Nat.mod_lt _ (by norm_num)
  rcases b with ⟨l, p, a⟩
  cases p <;> cases a <;> simp_all <;> omega

theorem unpack_pack (l : Nat) (p a : Bool) (hl : l < 16384) :
    unpack (pack ⟨l, p, a⟩) = ⟨l, p, a⟩ := by
  unfold unpack pack
  cases p <;> cases a <;> simp [Nat.mod_eq_of_lt hl] <;> omega

theorem unpack_pack_alloc (b : boundary_t) : (unpack (pack b)).alloc = b.alloc := by
  rcases b with ⟨l, p, a⟩
  unfold unpack pack
  cases p <;> cases a <;> simp <;> omega

theorem unpack_pack_p_alloc (b : boundary_t) : (unpack (pack b)).p_alloc = b.p_alloc := by
  rcases b with ⟨l, p, a⟩
  unfold unpack pack
  cases p <;> cases a <;> simp <;> omega

theorem pack_length_eq (l l2 : Nat) (p p2 a a2 : Bool) (hl : l < 16384) (hl2 : l2 < 16384)
    (h : pack ⟨l, p, a⟩ = pack ⟨l2, p2, a2⟩) : l = l2 := by
  unfold pack at h
  simp only [Nat.mod_eq_of_lt hl, Nat.mod_eq_of_lt hl2] at h
  cases p <;> cases p2 <;> cases a <;> cases a2 <;> simp_all <;> omega

theorem readTag_lt (h : Heap) (o : Nat) : readTag h o < 65536 :=
  Nat.mod_lt _ (by norm_num)

@[simp] theorem readTag_writeTag (h : Heap) (o o2 v : Nat) :
    readTag (writeTag h o v) o2 = if o2 = o then v % 65536 else readTag h o2 := by
  unfold readTag writeTag
  by_cases he : o2 = o <;> simp [he]

theorem readTag_pack_mod (b : boundary_t) : pack b % 65536 = pack b :=
  Nat.mod_eq_of_lt (pack_lt b)

/-! ## ReprSeg lemmas -/

theorem ReprSeg_nil_iff (h : Heap) (off e : Nat) (p pE : Bool) :
    ReprSeg h off p [] e pE = true ↔ off = e ∧ p = pE := by
  unfold ReprSeg
  simp

theorem ReprSeg_cons_iff (h : Heap) (off e : Nat) (p pE : Bool) (b : Blk) (bs : List Blk) :
    ReprSeg h off p (b :: bs) e pE = true ↔
      readTag h off = pack ⟨b.len, p, b.alloc⟩ ∧
      (b.alloc = false → readTag h (off + b.len - 2) = pack ⟨b.len, p, b.alloc⟩) ∧
      b.len ≠ 0 ∧ b.len % 8 = 0 ∧ off + b.len ≤ e ∧
      ReprSeg h (off + b.len) b.alloc bs e pE = true := by
  show ((readTag h off == pack ⟨b.len, p, b.alloc⟩) &&
      (b.alloc || (readTag h (off + b.len - 2) == pack ⟨b.len, p, b.alloc⟩)) &&
      (b.len != 0) && (b.len % 8 == 0) && decide (off + b.len ≤ e) &&
      ReprSeg h (off + b.len) b.alloc bs e pE) = true ↔ _
  cases hba : b.alloc <;> simp [hba] <;> tauto

theorem ReprSeg_le (h : Heap) :
    ∀ (bs : List Blk) (off e : Nat) (p pE : Bool),
      ReprSeg h off p bs e pE = true → off ≤ e := by
  intro bs
  induction bs with
  | nil => intro off e p pE hr; rw [ReprSeg_nil_iff] at hr; omega
  | cons b bs ih =>
    intro off e p pE hr
    rw [ReprSeg_cons_iff] at hr
    omega

theorem ReprSeg_frame (h h2 : Heap) :
    ∀ (bs : List Blk) (off e : Nat) (p pE : Bool),
      ReprSeg h off p bs e pE = true →
      (∀ o, off ≤ o → o < e → h2 o = h o) →
      ReprSeg h2 off p bs e pE = true := by
  intro bs
  induction bs with
  | nil =>
    intro off e p pE hr _
    rw [ReprSeg_nil_iff] at hr ⊢; exact hr
  | cons b bs ih =>
    intro off e p pE hr hagree
    rw [ReprSeg_cons_iff] at hr ⊢
    obtain ⟨hh, hf, hne, hmod, hle, hrest⟩ := hr
    have hread : readTag h2 off = readTag h off := by
      unfold readTag; rw [hagree off le_rfl (by omega)]
    have hreadf : readTag h2 (off + b.len - 2) = readTag h (off + b.len - 2) := by
      unfold readTag; rw [hagree (off + b.len - 2) (by omega) (by omega)]
    refine ⟨by rw [hread]; exact hh, fun hba => by rw [hreadf]; exact hf hba, hne, hmod, hle, ?_⟩
    exact ih (off + b.len) e b.alloc pE hrest (fun o ho1 ho2 => hagree o (by omega) ho2)

theorem ReprSeg_append (h : Heap) :
    ∀ (l r : List Blk) (off m e : Nat) (p pm pE : Bool),
      ReprSeg h off p l m pm = true → ReprSeg h m pm r e pE = true →
      ReprSeg h off p (l ++ r) e pE = true := by
  intro l
  induction l with
  | nil =>
    intro r off m e p pm pE hl hr
    rw [ReprSeg_nil_iff] at hl
    obtain ⟨rfl, rfl⟩ := hl
    simpa using hr
  | cons b l ih =>
    intro r off m e p pm pE hl hr
    rw [ReprSeg_cons_iff] at hl
    obtain ⟨hh, hf, hne, hmod, hle, hrest⟩ := hl
    rw [List.cons_append, ReprSeg_cons_iff]
    have hme : m ≤ e := ReprSeg_le h r m e pm pE hr
    have : off + b.len ≤ m := ReprSeg_le h l (off + b.len) m b.alloc pm hrest
    exact ⟨hh, hf, hne, hmod, by omega, ih r (off + b.len) m e b.alloc pm pE hrest hr⟩

theorem ReprSeg_append_split (h : Heap) :
    ∀ (l r : List Blk) (off e : Nat) (p pE : Bool),
      ReprSeg h off p (l ++ r) e pE = true →
      ∃ m pm, ReprSeg h off p l m pm = true ∧ ReprSeg h m pm r e pE = true := by
  intro l
  induction l with
  | nil =>
    intro r off e p pE hr
    exact ⟨off, p, by rw [ReprSeg_nil_iff]; exact ⟨rfl, rfl⟩, by simpa using hr⟩
  | cons b l ih =>
    intro r off e p pE hr
    rw [List.cons_append, ReprSeg_cons_iff] at hr
    obtain ⟨hh, hf, hne, hmod, hle, hrest⟩ := hr
    obtain ⟨m, pm, h1, h2⟩ := ih r (off + b.len) e b.alloc pE hrest
    refine ⟨m, pm, ?_, h2⟩
    rw [ReprSeg_cons_iff]
    have : off + b.len ≤ m := ReprSeg_le h l (off + b.len) m b.alloc pm h1
    have hme : m ≤ e := ReprSeg_le h r m e pm pE h2
    exact ⟨hh, hf, hne, hmod, by omega, h1⟩

/-! ## noAdjFree and allocStarts lemmas -/

theorem noAdjFree_cons_iff (pf : Bool) (b : Blk) (bs : List Blk) :
    noAdjFree pf (b :: bs) = true ↔
      (b.alloc = true ∨ pf = false) ∧ noAdjFree (!b.alloc) bs = true := by
  show ((b.alloc || !pf) && noAdjFree (!b.alloc) bs) = true ↔ _
  cases b.alloc <;> cases pf <;> simp

theorem noAdjFree_append (l : List Blk) :
    ∀ (pf : Bool) (r : List Blk),
      noAdjFree pf (l ++ r) = true ↔
        noAdjFree pf l = true ∧ noAdjFree (l.foldl (fun _ b => !b.alloc) pf) r = true := by
  induction l with
  | nil => intro pf r; simp [noAdjFree]
  | cons b l ih =>
    intro pf r
    rw [List.cons_append, noAdjFree_cons_iff, noAdjFree_cons_iff, ih]
    simp [List.foldl_cons, and_assoc]

theorem allocStarts_lb :
    ∀ (bs : List Blk) (off o : Nat), o ∈ allocStarts off bs → off ≤ o := by
  intro bs
  induction bs with
  | nil => intro off o ho; simp [allocStarts] at ho
  | cons b bs ih =>
    intro off o ho
    unfold allocStarts at ho
    by_cases hba : b.alloc = true
    · simp [hba] at ho
      rcases ho with rfl | ho
      · exact le_rfl
      · have := ih (off + b.len) o ho; omega
    · simp [hba] at ho
      have := ih (off + b.len) o ho; omega

theorem allocStarts_append (l : List Blk) :
    ∀ (r : List Blk) (off : Nat),
      allocStarts off (l ++ r) =
        allocStarts off l ++ allocStarts (off + (l.map Blk.len).sum) r := by
  induction l with
  | nil => intro r off; simp [allocStarts]
  | cons b l ih =>
    intro r off
    by_cases hba : b.alloc = true <;>
      simp [allocStarts, hba, ih, Nat.add_assoc]

theorem allocStarts_mod8 :
    ∀ (bs : List Blk) (h : Heap) (off e o : Nat) (p pE : Bool),
      ReprSeg h off p bs e pE = true → off % 8 = 0 → o ∈ allocStarts off bs →
      o % 8 = 0 := by
  intro bs
  induction bs with
  | nil => intro h off e o p pE _ _ ho; simp [allocStarts] at ho
  | cons b bs ih =>
    intro h off e o p pE hr hmod ho
    rw [ReprSeg_cons_iff] at hr
    obtain ⟨_, _, _, hlm, _, hrest⟩ := hr
    unfold allocStarts at ho
    have hnext : (off + b.len) % 8 = 0 := by omega
    by_cases hba : b.alloc = true
    · simp [hba] at ho
      rcases ho with rfl | ho
      · exact hmod
      · exact ih h (off + b.len) e o b.alloc pE hrest hnext ho
    · simp [hba] at ho
      exact ih h (off + b.len) e o b.alloc pE hrest hnext ho

/-- Locate an allocated block: a member of `allocStarts` splits the list into
a prefix, the allocated block itself, and a suffix, with the start equal to
the base plus the prefix length sum. -/
theorem allocStarts_decomp :
    ∀ (bs : List Blk) (off o : Nat), o ∈ allocStarts off bs →
      ∃ l b r, bs = l ++ b :: r ∧ b.alloc = true ∧ o = off + (l.map Blk.len).sum := by
  intro bs
  induction bs with
  | nil => intro off o ho; simp [allocStarts] at ho
  | cons b bs ih =>
    intro off o ho
    unfold allocStarts at ho
    by_cases hba : b.alloc = true
    · simp [hba] at ho
      rcases ho with rfl | ho
      · exact ⟨[], b, bs, rfl, hba, by simp⟩
      · obtain ⟨l, c, r, rfl, hc, hsum⟩ := ih (off + b.len) o ho
        exact ⟨b :: l, c, r, rfl, hc, by simp [hsum]; omega⟩
    · simp [hba] at ho
      obtain ⟨l, c, r, rfl, hc, hsum⟩ := ih (off + b.len) o ho
      exact ⟨b :: l, c, r, rfl, hc, by simp [hsum]; omega⟩

/-- The last block of a nonempty represented segment whose final
allocated-flag is false is a free block with known header and footer. -/
theorem ReprSeg_last_free (h : Heap) :
    ∀ (l : List Blk) (off m : Nat) (p : Bool),
      ReprSeg h off p l m false = true →
      (p = false → l ≠ []) →
      ∃ l2 a p2, l = l2 ++ [a] ∧ a.alloc = false ∧
        ReprSeg h off p l2 (m - a.len) p2 = true ∧
        readTag h (m - a.len) = pack ⟨a.len, p2, false⟩ ∧
        readTag h (m - 2) = pack ⟨a.len, p2, false⟩ ∧
        a.len ≠ 0 ∧ a.len % 8 = 0 ∧ a.len ≤ m ∧ off + a.len ≤ m := by
  intro l off m p hr hne
  rcases List.eq_nil_or_concat l with rfl | ⟨l2, a, rfl⟩
  · rw [ReprSeg_nil_iff] at hr
    exact absurd rfl (hne hr.2)
  · rw [List.concat_eq_append] at hr
    obtain ⟨m2, pm, h1, h2⟩ := ReprSeg_append_split h l2 [a] off m p false hr
    rw [ReprSeg_cons_iff] at h2
    obtain ⟨hh, hf, hne2, hmod, hle, hnil⟩ := h2
    rw [ReprSeg_nil_iff] at hnil
    obtain ⟨hm, hpa⟩ := hnil
    have hoffm : off ≤ m2 := ReprSeg_le h l2 off m2 p pm h1
    have hma : m - a.len = m2 := by omega
    rw [hpa] at hh hf
    refine ⟨l2, a, pm, by simp, hpa, ?_, ?_, ?_, hne2, hmod, by omega, by omega⟩
    · rw [hma]; exact h1
    · rw [hma]; exact hh
    · have h3 : m - 2 = m2 + a.len - 2 := by omega
      rw [h3]; exact hf rfl

/-! ## Helper lemmas for the allocate loop -/

theorem writeTag_ne (h : Heap) (o v o2 : Nat) (hne : o2 ≠ o) :
    writeTag h o v o2 = h o2 := by
  simp [writeTag, hne]

theorem pad_facts (v : Nat) (hv : v + 2 ≤ 65528) :
    pad_length ((v + 2) % 65536) % 8 = 0 ∧ v + 2 ≤ pad_length ((v + 2) % 65536) ∧
      pad_length ((v + 2) % 65536) ≤ v + 9 ∧
      (v % 8 = 0 → pad_length ((v + 2) % 65536) = v + 8) := by
  have h1 : (v + 2) % 65536 = v + 2 := Nat.mod_eq_of_lt (by omega)
  unfold pad_length padding HEAP_ALIGN
  rw [h1]
  split <;> omega

theorem put_bnd_alloc (h : Heap) (ptr l : Nat) (p : Bool) :
    put_boundaries h ptr ⟨l, p, true⟩ = writeTag h ptr (pack ⟨l, p, true⟩) := by
  simp [put_boundaries, put_header]

theorem put_bnd_free (h : Heap) (ptr l : Nat) (p : Bool) :
    put_boundaries h ptr ⟨l, p, false⟩ =
      writeTag (writeTag h ptr (pack ⟨l, p, false⟩)) (ptr + l - 2) (pack ⟨l, p, false⟩) := by
  simp [put_boundaries, put_header, put_footer]

/-- The simulation lemma for the loop of `allocate`: on a heap representing
the block suffix `bs` from `off`, the loop terminates within `bs.length + 1`
iterations and either returns NULL leaving the state untouched, or returns a
payload pointer `q` congruent to 2 mod 8, into a previously-free block, such
that the heap again represents a block list with correct headers, footers,
lengths, epilogue, and no adjacent free blocks, all previously allocated
blocks untouched. -/
theorem allocGo_spec (st : allocator_t) (pE : Bool) :
    ∀ (bs : List Blk) (off : Nat) (p : Bool) (v n fuel : Nat),
      ReprSeg st.heap off p bs 4088 pE = true →
      readTag st.heap 4088 = pack ⟨8, pE, true⟩ →
      noAdjFree (!p) bs = true →
      off % 8 = 0 →
      (v = n ∧ n ≤ 61438 ∨ v % 8 = 0 ∧ v ≤ 61440 + off) →
      bs.length < fuel →
      ∃ res, allocateGo st off v fuel = some res ∧
        (res = (st, none) ∨
          ∃ st2 q, res = (st2, some q) ∧ q % 8 = 2 ∧ off + 2 ≤ q ∧
            (∀ o, o < off → st2.heap o = st.heap o) ∧
            ∃ bs2 pE2, ReprSeg st2.heap off p bs2 4088 pE2 = true ∧
              readTag st2.heap 4088 = pack ⟨8, pE2, true⟩ ∧
              noAdjFree (!p) bs2 = true ∧
              (∀ o, o ∈ allocStarts off bs → o ∈ allocStarts off bs2) ∧
              (q - 2) ∈ allocStarts off bs2 ∧ (q - 2) ∉ allocStarts off bs) := by
  intro bs
  induction bs with
  | nil =>
    intro off p v n fuel hr hepi hadj hmod hV hfuel
    rw [ReprSeg_nil_iff] at hr
    obtain ⟨rfl, rfl⟩ := hr
    obtain ⟨f, rfl⟩ : ∃ f, fuel = f + 1 := ⟨fuel - 1, by omega⟩
    refine ⟨(st, none), ?_, Or.inl rfl⟩
    simp [allocateGo, HEAP_SIZE, HEAP_ALIGN]
  | cons b bs ih =>
    intro off p v n fuel hr hepi hadj hmod hV hfuel
    rw [ReprSeg_cons_iff] at hr
    obtain ⟨hh, hf, hne, hlm, hle, hrest⟩ := hr
    rw [noAdjFree_cons_iff] at hadj
    obtain ⟨hadj1, hadj2⟩ := hadj
    have hblen : b.len < 16384 := by omega
    have hoff : off ≤ 4080 := by omega
    obtain ⟨f, rfl⟩ : ∃ f, fuel = f + 1 := ⟨fuel - 1, by omega⟩
    have hfuel2 : bs.length < f := by simpa using hfuel
    have hunfold : allocateGo st off v (f + 1) =
        (if off < 4088 then
          let bb := unpack (readTag st.heap off)
          if bb.alloc then allocateGo st (off + bb.length) v f
          else
            let v2 := pad_length ((v + 2) % 65536)
            if bb.length < v2 then allocateGo st (off + bb.length) v2 f
            else if bb.length - v2 ≤ 4 then
              let b2 : boundary_t := { bb with alloc := true }
              let h1 := put_boundaries st.heap off b2
              let h2 := update_p_alloc h1 off b2
              some ({ st with
                      heap := h2, available := st.available - b2.length,
                      allocations := st.allocations + 1 }, some (off + 2))
            else
              let nb : boundary_t := ⟨bb.length - v2, true, false⟩
              let h1 := put_boundaries st.heap (off + v2) nb
              let b2 : boundary_t := ⟨v2, bb.p_alloc, true⟩
              let h2 := put_boundaries h1 off b2
              some ({ st with
                      heap := h2, available := st.available - b2.length,
                      allocations := st.allocations + 1 }, some (off + 2))
        else some (st, none)) := by
      show allocateGo st off v (f + 1) = _
      rw [allocateGo]
      norm_num [HEAP_SIZE, HEAP_ALIGN]
    rw [hunfold, if_pos (by omega : off < 4088), hh, unpack_pack b.len p b.alloc hblen]
    cases hba : b.alloc with
    | true =>
      simp only [hba, if_true]
      have hV2 : v = n ∧ n ≤ 61438 ∨ v % 8 = 0 ∧ v ≤ 61440 + (off + b.len) := by
        rcases hV with h | h
        · exact Or.inl h
        · exact Or.inr ⟨h.1, by omega⟩
      rw [hba] at hrest hadj2
      obtain ⟨res, heq, hres⟩ := ih (off + b.len) true v n f hrest hepi hadj2 (by omega) hV2 hfuel2
      refine ⟨res, heq, ?_⟩
      rcases hres with rfl | ⟨st2, q, rfl, hq8, hq2, hframe, bs2, pE2, hr2, hepi2, hadj3, hstarts, hqin, hqout⟩
      · exact Or.inl rfl
      · refine Or.inr ⟨st2, q, rfl, hq8, by omega, fun o ho => hframe o (by omega), ?_⟩
        refine ⟨⟨b.len, true⟩ :: bs2, pE2, ?_, hepi2, ?_, ?_, ?_, ?_⟩
        · rw [ReprSeg_cons_iff]
          have hhd : readTag st2.heap off = readTag st.heap off := by
            unfold readTag; rw [hframe off (by omega)]
          refine ⟨by rw [hhd]; simpa [hba] using hh, by simp, hne, hlm, hle, hr2⟩
        · rw [noAdjFree_cons_iff]
          exact ⟨Or.inl rfl, hadj3⟩
        · intro o ho
          have hsplit : allocStarts off (b :: bs) = off :: allocStarts (off + b.len) bs := by
            simp [allocStarts, hba]
          have hsplit2 : allocStarts off (⟨b.len, true⟩ :: bs2) =
              off :: allocStarts (off + b.len) bs2 := by
            simp [allocStarts]
          rw [hsplit] at ho
          rw [hsplit2]
          simp only [List.mem_cons] at ho ⊢
          rcases ho with h1 | h1
          · exact Or.inl h1
          · exact Or.inr (hstarts o h1)
        · have hsplit2 : allocStarts off (⟨b.len, true⟩ :: bs2) =
              off :: allocStarts (off + b.len) bs2 := by
            simp [allocStarts]
          rw [hsplit2]
          simp only [List.mem_cons]
          exact Or.inr hqin
        · have hsplit : allocStarts off (b :: bs) = off :: allocStarts (off + b.len) bs := by
            simp [allocStarts, hba]
          rw [hsplit]
          simp only [List.mem_cons, not_or]
          exact ⟨by omega, hqout⟩
    | false =>
      simp only [hba, Bool.false_eq_true, if_false]
      have hpadpre : v + 2 ≤ 65528 := by rcases hV with h | h <;> omega
      obtain ⟨hp8, hplb, hpub, hpexact⟩ := pad_facts v hpadpre
      set v2 := pad_length ((v + 2) % 65536) with hv2def
      have hv2ge8 : 8 ≤ v2 := by omega
      have hV2 : v2 % 8 = 0 ∧ v2 ≤ 61440 + (off + b.len) := by
        rcases hV with h | h
        · exact ⟨hp8, by omega⟩
        · exact ⟨hp8, by omega⟩
      by_cases hsmall : b.len < v2
      · rw [if_pos hsmall]
        rw [hba] at hrest hadj2
        obtain ⟨res, heq, hres⟩ := ih (off + b.len) false v2 n f hrest hepi hadj2 (by omega)
          (Or.inr hV2) hfuel2
        refine ⟨res, heq, ?_⟩
        rcases hres with rfl | ⟨st2, q, rfl, hq8, hq2, hframe, bs2, pE2, hr2, hepi2, hadj3, hstarts, hqin, hqout⟩
        · exact Or.inl rfl
        · refine Or.inr ⟨st2, q, rfl, hq8, by omega, fun o ho => hframe o (by omega), ?_⟩
          refine ⟨⟨b.len, false⟩ :: bs2, pE2, ?_, hepi2, ?_, ?_, ?_, ?_⟩
          · rw [ReprSeg_cons_iff]
            have hhd : readTag st2.heap off = readTag st.heap off := by
              unfold readTag; rw [hframe off (by omega)]
            have hft : readTag st2.heap (off + b.len - 2) = readTag st.heap (off + b.len - 2) := by
              unfold readTag; rw [hframe _ (by omega)]
            refine ⟨by rw [hhd]; simpa [hba] using hh, ?_, hne, hlm, hle, hr2⟩
            intro _
            rw [hft]; simpa [hba] using hf hba
          · rw [noAdjFree_cons_iff]
            refine ⟨by simpa [hba] using hadj1, hadj3⟩
          · intro o ho
            have hsplit : allocStarts off (b :: bs) = allocStarts (off + b.len) bs := by
              simp [allocStarts, hba]
            have hsplit2 : allocStarts off (⟨b.len, false⟩ :: bs2) =
                allocStarts (off + b.len) bs2 := by
              simp [allocStarts]
            rw [hsplit] at ho
            rw [hsplit2]
            exact hstarts o ho
          · have hsplit2 : allocStarts off (⟨b.len, false⟩ :: bs2) =
                allocStarts (off + b.len) bs2 := by
              simp [allocStarts]
            rw [hsplit2]; exact hqin
          · have hsplit : allocStarts off (b :: bs) = allocStarts (off + b.len) bs := by
              simp [allocStarts, hba]
            rw [hsplit]; exact hqout
      · rw [if_neg hsmall]
        have hlenv : v2 ≤ b.len := by omega
        rw [hba] at hrest hadj2
        have hput1 : put_boundaries st.heap off (⟨b.len, p, true⟩ : boundary_t) =
            writeTag st.heap off (pack ⟨b.len, p, true⟩) := by
          simp [put_boundaries, put_header]
        by_cases hfit : b.len - v2 ≤ 4
        · -- exact fit: the whole free block is allocated, no split
          rw [if_pos hfit]
          have hexact : b.len = v2 := by omega
          rcases bs with _ | ⟨c, r2⟩
          · -- the successor is the epilogue
            rw [ReprSeg_nil_iff] at hrest
            obtain ⟨hend, hpE⟩ := hrest
            have hr1 : readTag (writeTag st.heap off (pack ⟨b.len, p, true⟩)) 4088 =
                pack ⟨8, pE, true⟩ := by
              rw [readTag_writeTag, if_neg (by omega)]; exact hepi
            have hupd : update_p_alloc (put_boundaries st.heap off ⟨b.len, p, true⟩)
                off ⟨b.len, p, true⟩ =
                writeTag (writeTag st.heap off (pack ⟨b.len, p, true⟩)) 4088
                  (pack ⟨8, true, true⟩) := by
              rw [hput1]
              simp only [update_p_alloc, HEAP_SIZE]
              rw [if_neg (by omega)]
              rw [hend, hr1, unpack_pack 8 pE true (by norm_num)]
              simp [put_boundaries, put_header]
            refine ⟨_, rfl, Or.inr ⟨{ st with
              heap := writeTag (writeTag st.heap off (pack ⟨b.len, p, true⟩)) 4088
                (pack ⟨8, true, true⟩),
              available := st.available - b.len,
              allocations := st.allocations + 1 }, off + 2, by rw [hupd], by omega, by omega,
              ?_, ⟨[⟨b.len, true⟩], true, ?_, ?_, ?_, ?_, ?_, ?_⟩⟩⟩
            · intro o ho
              show writeTag (writeTag st.heap off (pack ⟨b.len, p, true⟩)) 4088
                  (pack ⟨8, true, true⟩) o = st.heap o
              simp only [writeTag]
              rw [if_neg (by omega), if_neg (by omega)]
            · rw [ReprSeg_cons_iff]
              refine ⟨?_, by simp, hne, hlm, hle, ?_⟩
              · show readTag (writeTag (writeTag st.heap off (pack ⟨b.len, p, true⟩)) 4088
                    (pack ⟨8, true, true⟩)) off = _
                rw [readTag_writeTag, if_neg (by omega), readTag_writeTag, if_pos rfl,
                  readTag_pack_mod]
              · rw [ReprSeg_nil_iff]; exact ⟨hend, rfl⟩
            · show readTag (writeTag (writeTag st.heap off (pack ⟨b.len, p, true⟩)) 4088
                  (pack ⟨8, true, true⟩)) 4088 = _
              rw [readTag_writeTag, if_pos rfl, readTag_pack_mod]
            · rw [noAdjFree_cons_iff]
              exact ⟨Or.inl rfl, rfl⟩
            · intro o ho
              have h1 : allocStarts off [b] = allocStarts (off + b.len) [] := by
                simp [allocStarts, hba]
              rw [h1] at ho
              simp [allocStarts] at ho
            · have h2 : allocStarts off [(⟨b.len, true⟩ : Blk)] =
                  off :: allocStarts (off + b.len) [] := by simp [allocStarts]
              rw [h2]
              simp
            · have h1 : allocStarts off [b] = allocStarts (off + b.len) [] := by
                simp [allocStarts, hba]
              rw [h1]
              simp [allocStarts]
          · -- the successor is a real block c, necessarily allocated
            rw [ReprSeg_cons_iff] at hrest
            obtain ⟨hch, hcf, hcne, hclm, hcle, hcrest⟩ := hrest
            rw [noAdjFree_cons_iff] at hadj2
            have hca : c.alloc = true := by
              rcases hadj2.1 with h | h
              · exact h
              · simp at h
            have hadjr2 := hadj2.2
            rw [hca] at hch hcrest hadjr2
            have hclt : c.len < 16384 := by omega
            have hnoffub : off + b.len ≤ 4080 := by omega
            have hrn : readTag (writeTag st.heap off (pack ⟨b.len, p, true⟩)) (off + b.len) =
                pack ⟨c.len, false, true⟩ := by
              rw [readTag_writeTag, if_neg (by omega)]; exact hch
            have hupd : update_p_alloc (put_boundaries st.heap off ⟨b.len, p, true⟩)
                off ⟨b.len, p, true⟩ =
                writeTag (writeTag st.heap off (pack ⟨b.len, p, true⟩)) (off + b.len)
                  (pack ⟨c.len, true, true⟩) := by
              rw [hput1]
              simp only [update_p_alloc, HEAP_SIZE]
              rw [if_neg (by omega)]
              rw [hrn, unpack_pack c.len false true hclt]
              simp [put_boundaries, put_header]
            refine ⟨_, rfl, Or.inr ⟨{ st with
              heap := writeTag (writeTag st.heap off (pack ⟨b.len, p, true⟩)) (off + b.len)
                (pack ⟨c.len, true, true⟩),
              available := st.available - b.len,
              allocations := st.allocations + 1 }, off + 2, by rw [hupd], by omega, by omega,
              ?_, ⟨⟨b.len, true⟩ :: c :: r2, pE, ?_, ?_, ?_, ?_, ?_, ?_⟩⟩⟩
            · intro o ho
              show writeTag (writeTag st.heap off (pack ⟨b.len, p, true⟩)) (off + b.len)
                  (pack ⟨c.len, true, true⟩) o = st.heap o
              simp only [writeTag]
              rw [if_neg (by omega), if_neg (by omega)]
            · rw [ReprSeg_cons_iff]
              refine ⟨?_, by simp, hne, hlm, hle, ?_⟩
              · show readTag (writeTag (writeTag st.heap off (pack ⟨b.len, p, true⟩))
                    (off + b.len) (pack ⟨c.len, true, true⟩)) off = _
                rw [readTag_writeTag, if_neg (by omega), readTag_writeTag, if_pos rfl,
                  readTag_pack_mod]
              · rw [ReprSeg_cons_iff]
                refine ⟨?_, by simp [hca], hcne, hclm, hcle, ?_⟩
                · show readTag (writeTag (writeTag st.heap off (pack ⟨b.len, p, true⟩))
                      (off + b.len) (pack ⟨c.len, true, true⟩)) (off + b.len) = _
                  rw [readTag_writeTag, if_pos rfl, readTag_pack_mod, hca]
                · rw [hca]
                  refine ReprSeg_frame st.heap _ r2 _ 4088 true pE hcrest ?_
                  intro o ho1 ho2
                  have ho1b : off + b.len + c.len ≤ o := ho1
                  simp only [writeTag]
                  rw [if_neg (by omega), if_neg (by omega)]
            · show readTag (writeTag (writeTag st.heap off (pack ⟨b.len, p, true⟩))
                  (off + b.len) (pack ⟨c.len, true, true⟩)) 4088 = _
              rw [readTag_writeTag, if_neg (by omega), readTag_writeTag, if_neg (by omega)]
              exact hepi
            · rw [noAdjFree_cons_iff, noAdjFree_cons_iff, hca]
              exact ⟨Or.inl rfl, Or.inl rfl, hadjr2⟩
            · intro o ho
              have h1 : allocStarts off (b :: c :: r2) = allocStarts (off + b.len) (c :: r2) := by
                simp [allocStarts, hba]
              have h2 : allocStarts off ((⟨b.len, true⟩ : Blk) :: c :: r2) =
                  off :: allocStarts (off + b.len) (c :: r2) := by
                simp [allocStarts]
              rw [h1] at ho
              rw [h2]
              simp only [List.mem_cons]
              exact Or.inr ho
            · have h2 : allocStarts off ((⟨b.len, true⟩ : Blk) :: c :: r2) =
                  off :: allocStarts (off + b.len) (c :: r2) := by
                simp [allocStarts]
              rw [h2]
              simp
            · have h1 : allocStarts off (b :: c :: r2) = allocStarts (off + b.len) (c :: r2) := by
                simp [allocStarts, hba]
              rw [h1]
              intro hmem
              have := allocStarts_lb (c :: r2) (off + b.len) _ hmem
              omega
        · -- split: carve the required length, the rest becomes a new free block
          rw [if_neg hfit]
          have hleft8 : 8 ≤ b.len - v2 := by omega
          have hsplitheap : put_boundaries (put_boundaries st.heap (off + v2)
              ⟨b.len - v2, true, false⟩) off ⟨v2, p, true⟩ =
              writeTag (writeTag (writeTag st.heap (off + v2) (pack ⟨b.len - v2, true, false⟩))
                (off + b.len - 2) (pack ⟨b.len - v2, true, false⟩)) off (pack ⟨v2, p, true⟩) := by
            rw [put_bnd_free, put_bnd_alloc]
            have he : off + v2 + (b.len - v2) - 2 = off + b.len - 2 := by omega
            rw [he]
          refine ⟨_, rfl, Or.inr ⟨{ st with
            heap := writeTag (writeTag (writeTag st.heap (off + v2)
                (pack ⟨b.len - v2, true, false⟩)) (off + b.len - 2)
                (pack ⟨b.len - v2, true, false⟩)) off (pack ⟨v2, p, true⟩),
            available := st.available - v2,
            allocations := st.allocations + 1 }, off + 2, by rw [hsplitheap], by omega, by omega,
            ?_, ⟨⟨v2, true⟩ :: ⟨b.len - v2, false⟩ :: bs, pE, ?_, ?_, ?_, ?_, ?_, ?_⟩⟩⟩
          · intro o ho
            show writeTag (writeTag (writeTag st.heap (off + v2)
                (pack ⟨b.len - v2, true, false⟩)) (off + b.len - 2)
                (pack ⟨b.len - v2, true, false⟩)) off (pack ⟨v2, p, true⟩) o = st.heap o
            simp only [writeTag]
            rw [if_neg (by omega), if_neg (by omega), if_neg (by omega)]
          · rw [ReprSeg_cons_iff]
            refine ⟨?_, by simp, by show v2 ≠ 0; omega, by show v2 % 8 = 0; omega,
              by show off + v2 ≤ 4088; omega, ?_⟩
            · show readTag (writeTag (writeTag (writeTag st.heap (off + v2)
                  (pack ⟨b.len - v2, true, false⟩)) (off + b.len - 2)
                  (pack ⟨b.len - v2, true, false⟩)) off (pack ⟨v2, p, true⟩)) off = _
              rw [readTag_writeTag, if_pos rfl, readTag_pack_mod]
            · rw [ReprSeg_cons_iff]
              refine ⟨?_, ?_, by show b.len - v2 ≠ 0; omega, by show (b.len - v2) % 8 = 0; omega,
                by show off + v2 + (b.len - v2) ≤ 4088; omega, ?_⟩
              · show readTag (writeTag (writeTag (writeTag st.heap (off + v2)
                    (pack ⟨b.len - v2, true, false⟩)) (off + b.len - 2)
                    (pack ⟨b.len - v2, true, false⟩)) off (pack ⟨v2, p, true⟩)) (off + v2) = _
                rw [readTag_writeTag, if_neg (by omega), readTag_writeTag, if_neg (by omega),
                  readTag_writeTag, if_pos rfl, readTag_pack_mod]
              · intro _
                have he : off + v2 + (b.len - v2) - 2 = off + b.len - 2 := by omega
                show readTag (writeTag (writeTag (writeTag st.heap (off + v2)
                    (pack ⟨b.len - v2, true, false⟩)) (off + b.len - 2)
                    (pack ⟨b.len - v2, true, false⟩)) off (pack ⟨v2, p, true⟩))
                    (off + v2 + (b.len - v2) - 2) = _
                rw [he, readTag_writeTag, if_neg (by omega), readTag_writeTag, if_pos rfl,
                  readTag_pack_mod]
              · have he : off + v2 + (b.len - v2) = off + b.len := by omega
                rw [he]
                refine ReprSeg_frame st.heap _ bs (off + b.len) 4088 false pE hrest ?_
                intro o ho1 ho2
                simp only [writeTag]
                rw [if_neg (by omega), if_neg (by omega), if_neg (by omega)]
          · show readTag (writeTag (writeTag (writeTag st.heap (off + v2)
                (pack ⟨b.len - v2, true, false⟩)) (off + b.len - 2)
                (pack ⟨b.len - v2, true, false⟩)) off (pack ⟨v2, p, true⟩)) 4088 = _
            rw [readTag_writeTag, if_neg (by omega), readTag_writeTag, if_neg (by omega),
              readTag_writeTag, if_neg (by omega)]
            exact hepi
          · rw [noAdjFree_cons_iff, noAdjFree_cons_iff]
            exact ⟨Or.inl rfl, Or.inr rfl, hadj2⟩
          · intro o ho
            have h1 : allocStarts off (b :: bs) = allocStarts (off + b.len) bs := by
              simp [allocStarts, hba]
            have h2 : allocStarts off ((⟨v2, true⟩ : Blk) :: ⟨b.len - v2, false⟩ :: bs) =
                off :: allocStarts (off + v2 + (b.len - v2)) bs := by
              simp [allocStarts]
            have he : off + v2 + (b.len - v2) = off + b.len := by omega
            rw [h1] at ho
            rw [h2, he]
            simp only [List.mem_cons]
            exact Or.inr ho
          · have h2 : allocStarts off ((⟨v2, true⟩ : Blk) :: ⟨b.len - v2, false⟩ :: bs) =
                off :: allocStarts (off + v2 + (b.len - v2)) bs := by
              simp [allocStarts]
            rw [h2]
            simp
          · have h1 : allocStarts off (b :: bs) = allocStarts (off + b.len) bs := by
              simp [allocStarts, hba]
            rw [h1]
            intro hmem
            have := allocStarts_lb bs (off + b.len) _ hmem
            omega

/-- Termination of the allocate loop: on a heap representing a block list,
the loop always returns within one step per block (any request value). -/
theorem allocGo_total (st : allocator_t) (pE : Bool) :
    ∀ (bs : List Blk) (off : Nat) (p : Bool) (v fuel : Nat),
      ReprSeg st.heap off p bs 4088 pE = true →
      bs.length < fuel →
      (allocateGo st off v fuel).isSome = true := by
  intro bs
  induction bs with
  | nil =>
    intro off p v fuel hr hfuel
    rw [ReprSeg_nil_iff] at hr
    obtain ⟨rfl, rfl⟩ := hr
    obtain ⟨f, rfl⟩ : ∃ f, fuel = f + 1 := ⟨fuel - 1, by omega⟩
    simp [allocateGo, HEAP_SIZE, HEAP_ALIGN]
  | cons b bs ih =>
    intro off p v fuel hr hfuel
    rw [ReprSeg_cons_iff] at hr
    obtain ⟨hh, hf, hne, hlm, hle, hrest⟩ := hr
    have hblen : b.len < 16384 := by omega
    obtain ⟨f, rfl⟩ : ∃ f, fuel = f + 1 := ⟨fuel - 1, by omega⟩
    have hfuel2 : bs.length < f := by simpa using hfuel
    rw [allocateGo]
    rw [if_pos (by simp [HEAP_SIZE, HEAP_ALIGN]; omega : off < HEAP_SIZE - HEAP_ALIGN)]
    simp only [hh, unpack_pack b.len p b.alloc hblen]
    cases hba : b.alloc with
    | true =>
      simp only [if_true]
      exact ih (off + b.len) b.alloc v f hrest hfuel2
    | false =>
      simp only [Bool.false_eq_true, if_false]
      by_cases hsmall : b.len < pad_length ((v + 2) % 65536)
      · rw [if_pos hsmall]
        exact ih (off + b.len) b.alloc _ f hrest hfuel2
      · rw [if_neg hsmall]
        by_cases hfit : b.len - pad_length ((v + 2) % 65536) ≤ 4
        · rw [if_pos hfit]; rfl
        · rw [if_neg hfit]; rfl

/-- If every free block is smaller than the initial required length, the
loop walks to the epilogue and returns NULL without touching the state. -/
theorem allocGo_none (st : allocator_t) (pE : Bool) (n : Nat) (hn : n ≤ 61438) :
    ∀ (bs : List Blk) (off : Nat) (p : Bool) (v fuel : Nat),
      ReprSeg st.heap off p bs 4088 pE = true →
      (∀ b ∈ bs, b.alloc = false → b.len < pad_length (n + 2)) →
      (v = n ∨ v % 8 = 0 ∧ pad_length (n + 2) ≤ v ∧ v ≤ 61440 + off) →
      bs.length < fuel →
      allocateGo st off v fuel = some (st, none) := by
  intro bs
  induction bs with
  | nil =>
    intro off p v fuel hr hfree hV hfuel
    rw [ReprSeg_nil_iff] at hr
    obtain ⟨rfl, rfl⟩ := hr
    obtain ⟨f, rfl⟩ : ∃ f, fuel = f + 1 := ⟨fuel - 1, by omega⟩
    simp [allocateGo, HEAP_SIZE, HEAP_ALIGN]
  | cons b bs ih =>
    intro off p v fuel hr hfree hV hfuel
    rw [ReprSeg_cons_iff] at hr
    obtain ⟨hh, hf, hne, hlm, hle, hrest⟩ := hr
    have hblen : b.len < 16384 := by omega
    have hoff : off ≤ 4080 := by omega
    obtain ⟨f, rfl⟩ : ∃ f, fuel = f + 1 := ⟨fuel - 1, by omega⟩
    have hfuel2 : bs.length < f := by simpa using hfuel
    rw [allocateGo]
    rw [if_pos (by simp [HEAP_SIZE, HEAP_ALIGN]; omega : off < HEAP_SIZE - HEAP_ALIGN)]
    simp only [hh, unpack_pack b.len p b.alloc hblen]
    cases hba : b.alloc with
    | true =>
      simp only [if_true]
      refine ih (off + b.len) b.alloc v f hrest ?_ ?_ hfuel2
      · intro c hc hcf; exact hfree c (List.mem_cons_of_mem b hc) hcf
      · rcases hV with h | h
        · exact Or.inl h
        · exact Or.inr ⟨h.1, h.2.1, by omega⟩
    | false =>
      simp only [Bool.false_eq_true, if_false]
      have hnpre : (n + 2) % 65536 = n + 2 := Nat.mod_eq_of_lt (by omega)
      have hvpre : v + 2 ≤ 65528 := by
        rcases hV with rfl | h <;> omega
      obtain ⟨hp8, hplb, hpub, hpexact⟩ := pad_facts v hvpre
      have hnfacts := pad_facts n (by omega)
      rw [hnpre] at hnfacts
      obtain ⟨hn8, hnlb, hnub, _⟩ := hnfacts
      have hthresh : pad_length (n + 2) ≤ pad_length ((v + 2) % 65536) := by
        rcases hV with rfl | ⟨hv8, hvlo, hvhi⟩
        · rw [hnpre]
        · rw [hpexact hv8]; omega
      have hsmall : b.len < pad_length ((v + 2) % 65536) := by
        have := hfree b (List.mem_cons_self b bs) hba
        omega
      rw [if_pos hsmall]
      refine ih (off + b.len) b.alloc _ f hrest ?_ ?_ hfuel2
      · intro c hc hcf; exact hfree c (List.mem_cons_of_mem b hc) hcf
      · refine Or.inr ⟨hp8, hthresh, ?_⟩
        rcases hV with rfl | ⟨hv8, hvlo, hvhi⟩
        · omega
        · rw [hpexact hv8]; omega

/-- If every block before the epilogue is allocated, allocate returns NULL
for every request value: the loop never reaches the code that recomputes
the required length. -/
theorem allocGo_allAlloc (st : allocator_t) (pE : Bool) :
    ∀ (bs : List Blk) (off : Nat) (p : Bool) (v fuel : Nat),
      ReprSeg st.heap off p bs 4088 pE = true →
      (∀ b ∈ bs, b.alloc = true) →
      bs.length < fuel →
      allocateGo st off v fuel = some (st, none) := by
  intro bs
  induction bs with
  | nil =>
    intro off p v fuel hr hall hfuel
    rw [ReprSeg_nil_iff] at hr
    obtain ⟨rfl, rfl⟩ := hr
    obtain ⟨f, rfl⟩ : ∃ f, fuel = f + 1 := ⟨fuel - 1, by omega⟩
    simp [allocateGo, HEAP_SIZE, HEAP_ALIGN]
  | cons b bs ih =>
    intro off p v fuel hr hall hfuel
    rw [ReprSeg_cons_iff] at hr
    obtain ⟨hh, hf, hne, hlm, hle, hrest⟩ := hr
    have hblen : b.len < 16384 := by omega
    obtain ⟨f, rfl⟩ : ∃ f, fuel = f + 1 := ⟨fuel - 1, by omega⟩
    have hfuel2 : bs.length < f := by simpa using hfuel
    rw [allocateGo]
    rw [if_pos (by simp [HEAP_SIZE, HEAP_ALIGN]; omega : off < HEAP_SIZE - HEAP_ALIGN)]
    simp only [hh, unpack_pack b.len p b.alloc hblen]
    have hba : b.alloc = true := hall b (List.mem_cons_self b bs)
    rw [hba]
    simp only [if_true]
    refine ih (off + b.len) b.alloc v f hrest ?_ hfuel2
    intro c hc; exact hall c (List.mem_cons_of_mem b hc)

/-! ## Deallocate simulation -/

theorem ReprSeg_len (h : Heap) :
    ∀ (l : List Blk) (off e : Nat) (p pm : Bool),
      ReprSeg h off p l e pm = true → e = off + (l.map Blk.len).sum := by
  intro l
  induction l with
  | nil =>
    intro off e p pm hr
    rw [ReprSeg_nil_iff] at hr
    simp [hr.1.symm]
  | cons b l ih =>
    intro off e p pm hr
    rw [ReprSeg_cons_iff] at hr
    have := ih (off + b.len) e b.alloc pm hr.2.2.2.2.2
    simp [this]
    omega

theorem ReprSeg_foldFlag (h : Heap) :
    ∀ (l : List Blk) (off e : Nat) (p pm : Bool),
      ReprSeg h off p l e pm = true →
      l.foldl (fun _ b => !b.alloc) (!p) = !pm := by
  intro l
  induction l with
  | nil =>
    intro off e p pm hr
    rw [ReprSeg_nil_iff] at hr
    simp [hr.2]
  | cons b l ih =>
    intro off e p pm hr
    rw [ReprSeg_cons_iff] at hr
    simpa using ih (off + b.len) e b.alloc pm hr.2.2.2.2.2

/-- The central deallocate lemma: freeing a live pointer preserves the full
state invariant, with the freed pointer removed from the live list. -/
theorem deallocate_spec (st : allocator_t) (L : List Nat) (p : Nat)
    (hgood : GoodState st L) (hp : p ∈ L) :
    GoodState (deallocate st (some p)) (L.erase p) := by
  obtain ⟨bs, pE, hr, hepi, hadj, hnodup, hlive⟩ := hgood
  obtain ⟨hp2, hpstart⟩ := hlive p hp
  obtain ⟨l, b, r, rfl, hballoc, hsum⟩ := allocStarts_decomp bs 0 (p - 2) hpstart
  obtain ⟨m2, pm, hl, hbr⟩ := ReprSeg_append_split st.heap l (b :: r) 0 4088 true pE hr
  have hm2 : m2 = p - 2 := by
    have := ReprSeg_len st.heap l 0 m2 true pm hl
    omega
  rw [hm2] at hl hbr
  rw [ReprSeg_cons_iff] at hbr
  obtain ⟨hbh, hbf, hbne, hblm, hble, hrrest⟩ := hbr
  rw [hballoc] at hbh hrrest
  have hblen : b.len < 16384 := by omega
  have hMub : p - 2 ≤ 4080 := by omega
  have hlive2 : ∀ q ∈ L.erase p, 2 ≤ q ∧ q - 2 ≠ p - 2 ∧ q - 2 ∈ allocStarts 0 (l ++ b :: r) := by
    intro q hq
    rw [List.Nodup.mem_erase_iff hnodup] at hq
    obtain ⟨hqp, hqL⟩ := hq
    obtain ⟨hq2, hqs⟩ := hlive q hqL
    exact ⟨hq2, by omega, hqs⟩
  have hstartsOld : allocStarts 0 (l ++ b :: r) =
      allocStarts 0 l ++ ((p - 2) :: allocStarts (p - 2 + b.len) r) := by
    rw [allocStarts_append]
    have h1 : 0 + (l.map Blk.len).sum = p - 2 := by omega
    rw [h1]
    congr 1
    simp [allocStarts, hballoc]
  -- the four coalescing cases, by the previous flag and the shape of r
  cases hpm : pm with
  | true =>
    rcases r with _ | ⟨c, r2⟩
    · -- case 1 with the epilogue as successor
      rw [ReprSeg_nil_iff] at hrrest
      obtain ⟨hend, hpE⟩ := hrrest
      rw [hpm] at hbh hl
      rw [← hpE] at hepi
      have heq : deallocate st (some p) = { st with
          heap := writeTag (writeTag (writeTag st.heap (p - 2) (pack ⟨b.len, true, false⟩))
            (p - 2 + b.len - 2) (pack ⟨b.len, true, false⟩)) 4088 (pack ⟨8, false, true⟩),
          deallocations := st.deallocations + 1,
          available := st.available + b.len } := by
        simp only [deallocate]
        rw [hbh, unpack_pack b.len true true hblen]
        rw [if_neg (by simp)]
        rw [if_neg (by simp [HEAP_SIZE, HEAP_ALIGN]; omega)]
        rw [hend, hepi, unpack_pack 8 true true (by norm_num)]
        rw [if_pos (by simp)]
        rw [put_bnd_free]
        have hupd : update_p_alloc (writeTag (writeTag st.heap (p - 2)
            (pack ⟨b.len, true, false⟩)) (p - 2 + b.len - 2) (pack ⟨b.len, true, false⟩))
            (p - 2) ⟨b.len, true, false⟩ =
            writeTag (writeTag (writeTag st.heap (p - 2) (pack ⟨b.len, true, false⟩))
              (p - 2 + b.len - 2) (pack ⟨b.len, true, false⟩)) 4088 (pack ⟨8, false, true⟩) := by
          simp only [update_p_alloc, HEAP_SIZE]
          rw [if_neg (by omega)]
          rw [readTag_writeTag, if_neg (by omega), readTag_writeTag, if_neg (by omega)]
          rw [hend, hepi, unpack_pack 8 true true (by norm_num)]
          simp [put_boundaries, put_header]
        rw [hupd, hend]
      rw [heq]
      refine ⟨l ++ [⟨b.len, false⟩], false, ?_, ?_, ?_, List.Nodup.erase p hnodup, ?_⟩
      · refine ReprSeg_append _ l [⟨b.len, false⟩] 0 (p - 2) 4088 true true false ?_ ?_
        · refine ReprSeg_frame st.heap _ l 0 (p - 2) true true hl ?_
          intro o ho1 ho2
          simp only [writeTag]
          rw [if_neg (by omega), if_neg (by omega), if_neg (by omega)]
        · rw [ReprSeg_cons_iff]
          refine ⟨?_, ?_, hbne, hblm, by show p - 2 + b.len ≤ 4088; omega, ?_⟩
          · show readTag _ (p - 2) = pack ⟨b.len, true, false⟩
            rw [readTag_writeTag, if_neg (by omega), readTag_writeTag, if_neg (by omega),
              readTag_writeTag, if_pos rfl, readTag_pack_mod]
          · intro _
            show readTag _ (p - 2 + b.len - 2) = pack ⟨b.len, true, false⟩
            rw [readTag_writeTag, if_neg (by omega), readTag_writeTag, if_pos rfl,
              readTag_pack_mod]
          · rw [ReprSeg_nil_iff]
            exact ⟨hend, rfl⟩
      · show readTag _ 4088 = _
        rw [readTag_writeTag, if_pos rfl, readTag_pack_mod]
      · rw [noAdjFree_append] at hadj ⊢
        obtain ⟨hadjl, hadjr⟩ := hadj
        refine ⟨hadjl, ?_⟩
        have hflag : l.foldl (fun _ b => !b.alloc) false = false := by
          have := ReprSeg_foldFlag st.heap l 0 (p - 2) true true hl
          simpa using this
        rw [hflag] at hadjr ⊢
        rw [noAdjFree_cons_iff]
        exact ⟨Or.inr rfl, rfl⟩
      · intro q hq
        obtain ⟨hq2, hqne, hqs⟩ := hlive2 q hq
        refine ⟨hq2, ?_⟩
        rw [hstartsOld] at hqs
        have hstartsNew : allocStarts 0 (l ++ [(⟨b.len, false⟩ : Blk)]) =
            allocStarts 0 l := by
          rw [allocStarts_append]
          simp [allocStarts]
        rw [hstartsNew]
        rw [List.mem_append] at hqs
        rcases hqs with h | h
        · exact h
        · rw [List.mem_cons] at h
          rcases h with h | h
          · omega
          · simp [allocStarts] at h
    · rw [ReprSeg_cons_iff] at hrrest
      obtain ⟨hch, hcf, hcne, hclm, hcle, hcrest⟩ := hrrest
      cases hca : c.alloc with
      | true =>
        -- case 1: both neighbours allocated, no coalesce
        rw [hca] at hch hcrest
        rw [hpm] at hbh hl
        have hclen : c.len < 16384 := by omega
        have hcub : p - 2 + b.len ≤ 4080 := by omega
        -- the written heap
        have heq : deallocate st (some p) = { st with
            heap := writeTag (writeTag (writeTag st.heap (p - 2) (pack ⟨b.len, true, false⟩))
              (p - 2 + b.len - 2) (pack ⟨b.len, true, false⟩)) (p - 2 + b.len)
              (pack ⟨c.len, false, true⟩),
            deallocations := st.deallocations + 1,
            available := st.available + b.len } := by
          simp only [deallocate]
          rw [hbh, unpack_pack b.len true true hblen]
          rw [if_neg (by simp)]
          rw [if_neg (by simp [HEAP_SIZE, HEAP_ALIGN]; omega)]
          rw [hch, unpack_pack c.len true true hclen]
          rw [if_pos (by simp)]
          rw [put_bnd_free]
          have hupd : update_p_alloc (writeTag (writeTag st.heap (p - 2)
              (pack ⟨b.len, true, false⟩)) (p - 2 + b.len - 2) (pack ⟨b.len, true, false⟩))
              (p - 2) ⟨b.len, true, false⟩ =
              writeTag (writeTag (writeTag st.heap (p - 2) (pack ⟨b.len, true, false⟩))
                (p - 2 + b.len - 2) (pack ⟨b.len, true, false⟩)) (p - 2 + b.len)
                (pack ⟨c.len, false, true⟩) := by
            simp only [update_p_alloc, HEAP_SIZE]
            rw [if_neg (by omega)]
            rw [readTag_writeTag, if_neg (by omega), readTag_writeTag, if_neg (by omega)]
            rw [hch, unpack_pack c.len true true hclen]
            simp [put_boundaries, put_header]
          rw [hupd]
        rw [heq]
        refine ⟨l ++ ⟨b.len, false⟩ :: ⟨c.len, true⟩ :: r2, pE, ?_, ?_, ?_,
          List.Nodup.erase p hnodup, ?_⟩
        · refine ReprSeg_append _ l (⟨b.len, false⟩ :: ⟨c.len, true⟩ :: r2) 0 (p - 2) 4088
              true true pE ?_ ?_
          · refine ReprSeg_frame st.heap _ l 0 (p - 2) true true hl ?_
            intro o ho1 ho2
            simp only [writeTag]
            rw [if_neg (by omega), if_neg (by omega), if_neg (by omega)]
          · rw [ReprSeg_cons_iff]
            refine ⟨?_, ?_, hbne, hblm, by show p - 2 + b.len ≤ 4088; omega, ?_⟩
            · show readTag _ (p - 2) = pack ⟨b.len, true, false⟩
              rw [readTag_writeTag, if_neg (by omega), readTag_writeTag, if_neg (by omega),
                readTag_writeTag, if_pos rfl, readTag_pack_mod]
            · intro _
              show readTag _ (p - 2 + b.len - 2) = pack ⟨b.len, true, false⟩
              rw [readTag_writeTag, if_neg (by omega), readTag_writeTag, if_pos rfl,
                readTag_pack_mod]
            · rw [ReprSeg_cons_iff]
              refine ⟨?_, by simp, by show c.len ≠ 0; exact hcne, by show c.len % 8 = 0; exact hclm,
                by show p - 2 + b.len + c.len ≤ 4088; omega, ?_⟩
              · show readTag _ (p - 2 + b.len) = pack ⟨c.len, false, true⟩
                rw [readTag_writeTag, if_pos rfl, readTag_pack_mod]
              · show ReprSeg _ (p - 2 + b.len + c.len) true r2 4088 pE = true
                refine ReprSeg_frame st.heap _ r2 (p - 2 + b.len + c.len) 4088 true pE hcrest ?_
                intro o ho1 ho2
                simp only [writeTag]
                rw [if_neg (by omega), if_neg (by omega), if_neg (by omega)]
        · show readTag _ 4088 = _
          rw [readTag_writeTag, if_neg (by omega), readTag_writeTag, if_neg (by omega),
            readTag_writeTag, if_neg (by omega)]
          exact hepi
        · rw [noAdjFree_append] at hadj ⊢
          obtain ⟨hadjl, hadjr⟩ := hadj
          refine ⟨hadjl, ?_⟩
          have hflag : l.foldl (fun _ b => !b.alloc) false = false := by
            have := ReprSeg_foldFlag st.heap l 0 (p - 2) true true hl
            simpa using this
          rw [hflag] at hadjr ⊢
          rw [noAdjFree_cons_iff] at hadjr ⊢
          obtain ⟨_, hadjr2⟩ := hadjr
          rw [hballoc] at hadjr2
          rw [noAdjFree_cons_iff] at hadjr2 ⊢
          refine ⟨Or.inr rfl, Or.inl rfl, ?_⟩
          have := hadjr2.2
          rw [hca] at this
          exact this
        · intro q hq
          obtain ⟨hq2, hqne, hqs⟩ := hlive2 q hq
          refine ⟨hq2, ?_⟩
          rw [hstartsOld] at hqs
          have hstartsNew : allocStarts 0 (l ++ ⟨b.len, false⟩ :: ⟨c.len, true⟩ :: r2) =
              allocStarts 0 l ++ ((p - 2 + b.len) :: allocStarts (p - 2 + b.len + c.len) r2) := by
            rw [allocStarts_append]
            have h1 : 0 + (l.map Blk.len).sum = p - 2 := by omega
            rw [h1]
            simp [allocStarts]
          have hstartsTail : allocStarts (p - 2 + b.len) (c :: r2) =
              (p - 2 + b.len) :: allocStarts (p - 2 + b.len + c.len) r2 := by
            simp [allocStarts, hca]
          rw [hstartsNew]
          rw [hstartsTail] at hqs
          rw [List.mem_append] at hqs ⊢
          rcases hqs with h | h
          · exact Or.inl h
          · rw [List.mem_cons] at h
            rcases h with h | h
            · omega
            · exact Or.inr h
      | false =>
        -- case 3: previous allocated, successor free: coalesce to the right
        rw [hca] at hch hcrest
        have hcfoot := hcf hca
        rw [hca] at hcfoot
        rw [hpm] at hbh hl
        have hclen : c.len < 16384 := by omega
        have heq : deallocate st (some p) = { st with
            heap := writeTag (writeTag st.heap (p - 2) (pack ⟨b.len + c.len, true, false⟩))
              (p - 2 + (b.len + c.len) - 2) (pack ⟨b.len + c.len, true, false⟩),
            deallocations := st.deallocations + 1,
            r_coalesce := st.r_coalesce + 1,
            available := st.available + (b.len + c.len) } := by
          simp only [deallocate]
          rw [hbh, unpack_pack b.len true true hblen]
          rw [if_neg (by simp)]
          rw [if_neg (by simp [HEAP_SIZE, HEAP_ALIGN]; omega)]
          rw [hch, unpack_pack c.len true false hclen]
          rw [if_neg (by simp)]
          rw [if_neg (by simp)]
          rw [if_pos (by simp)]
          rw [put_bnd_free]
        rw [heq]
        refine ⟨l ++ ⟨b.len + c.len, false⟩ :: r2, pE, ?_, ?_, ?_,
          List.Nodup.erase p hnodup, ?_⟩
        · refine ReprSeg_append _ l (⟨b.len + c.len, false⟩ :: r2) 0 (p - 2) 4088
            true true pE ?_ ?_
          · refine ReprSeg_frame st.heap _ l 0 (p - 2) true true hl ?_
            intro o ho1 ho2
            simp only [writeTag]
            rw [if_neg (by omega), if_neg (by omega)]
          · rw [ReprSeg_cons_iff]
            refine ⟨?_, ?_, by show b.len + c.len ≠ 0; omega, by show (b.len + c.len) % 8 = 0; omega,
              by show p - 2 + (b.len + c.len) ≤ 4088; omega, ?_⟩
            · show readTag _ (p - 2) = pack ⟨b.len + c.len, true, false⟩
              rw [readTag_writeTag, if_neg (by omega), readTag_writeTag, if_pos rfl,
                readTag_pack_mod]
            · intro _
              show readTag _ (p - 2 + (b.len + c.len) - 2) = pack ⟨b.len + c.len, true, false⟩
              rw [readTag_writeTag, if_pos rfl, readTag_pack_mod]
            · show ReprSeg _ (p - 2 + (b.len + c.len)) false r2 4088 pE = true
              have he : p - 2 + (b.len + c.len) = p - 2 + b.len + c.len := by omega
              rw [he]
              refine ReprSeg_frame st.heap _ r2 (p - 2 + b.len + c.len) 4088 false pE hcrest ?_
              intro o ho1 ho2
              simp only [writeTag]
              rw [if_neg (by omega), if_neg (by omega)]
        · show readTag _ 4088 = _
          rw [readTag_writeTag, if_neg (by omega), readTag_writeTag, if_neg (by omega)]
          exact hepi
        · rw [noAdjFree_append] at hadj ⊢
          obtain ⟨hadjl, hadjr⟩ := hadj
          refine ⟨hadjl, ?_⟩
          have hflag : l.foldl (fun _ b => !b.alloc) false = false := by
            have := ReprSeg_foldFlag st.heap l 0 (p - 2) true true hl
            simpa using this
          rw [hflag] at hadjr ⊢
          rw [noAdjFree_cons_iff] at hadjr ⊢
          obtain ⟨_, hadjr2⟩ := hadjr
          rw [hballoc] at hadjr2
          rw [noAdjFree_cons_iff] at hadjr2
          refine ⟨Or.inr rfl, ?_⟩
          have h9 := hadjr2.2
          rw [hca] at h9
          exact h9
        · intro q hq
          obtain ⟨hq2, hqne, hqs⟩ := hlive2 q hq
          refine ⟨hq2, ?_⟩
          rw [hstartsOld] at hqs
          have hstartsNew : allocStarts 0 (l ++ ⟨b.len + c.len, false⟩ :: r2) =
              allocStarts 0 l ++ allocStarts (p - 2 + b.len + c.len) r2 := by
            rw [allocStarts_append]
            have h1 : 0 + (l.map Blk.len).sum = p - 2 := by omega
            rw [h1]
            have h3 : p - 2 + (b.len + c.len) = p - 2 + b.len + c.len := by omega
            simp [allocStarts, h3]
          have hstartsTail : allocStarts (p - 2 + b.len) (c :: r2) =
              allocStarts (p - 2 + b.len + c.len) r2 := by
            simp [allocStarts, hca]
          rw [hstartsNew]
          rw [hstartsTail] at hqs
          rw [List.mem_append] at hqs ⊢
          rcases hqs with h | h
          · exact Or.inl h
          · rw [List.mem_cons] at h
            rcases h with h | h
            · omega
            · exact Or.inr h
  | false =>
    -- the previous block is free: locate it through its footer
    rw [hpm] at hbh hl
    obtain ⟨l2, a, p2, rfl, haal, hl2, hahead, hafoot, hane, halm, haleM, _⟩ :=
      ReprSeg_last_free st.heap l 0 (p - 2) true hl (fun hcontra => by simp at hcontra)
    have halen : a.len < 16384 := by omega
    have hstartsL : allocStarts 0 (l2 ++ [a]) = allocStarts 0 l2 := by
      rw [allocStarts_append]
      simp [allocStarts, haal]
    have hflag2 : l2.foldl (fun _ b => !b.alloc) false = !p2 := by
      have := ReprSeg_foldFlag st.heap l2 0 (p - 2 - a.len) true p2 hl2
      simpa using this
    have hadjsplit : noAdjFree false l2 = true ∧ p2 = true ∧
        noAdjFree true (b :: r) = true := by
      rw [List.append_assoc] at hadj
      rw [noAdjFree_append] at hadj
      obtain ⟨hadjl2, hadjr⟩ := hadj
      rw [hflag2] at hadjr
      rw [List.singleton_append, noAdjFree_cons_iff] at hadjr
      obtain ⟨hcond, hadjr2⟩ := hadjr
      rw [haal] at hadjr2
      refine ⟨hadjl2, ?_, by simpa using hadjr2⟩
      rcases hcond with h | h
      · rw [haal] at h; simp at h
      · simpa using h
    obtain ⟨hadjl2, hp2true, hadjbr⟩ := hadjsplit
    rw [hp2true] at hl2 hahead hafoot
    rcases r with _ | ⟨c, r2⟩
    · -- case 2 with the epilogue as successor: left coalesce
      rw [ReprSeg_nil_iff] at hrrest
      obtain ⟨hend, hpE⟩ := hrrest
      rw [← hpE] at hepi
      have hputm : put_boundaries st.heap (p - 2 - a.len)
          (⟨b.len + a.len, true, false⟩ : boundary_t) =
          writeTag (writeTag st.heap (p - 2 - a.len) (pack ⟨b.len + a.len, true, false⟩))
            (p - 2 + b.len - 2) (pack ⟨b.len + a.len, true, false⟩) := by
        rw [put_bnd_free]
        have he : p - 2 - a.len + (b.len + a.len) - 2 = p - 2 + b.len - 2 := by omega
        rw [he]
      have heq : deallocate st (some p) = { st with
          heap := writeTag (writeTag (writeTag st.heap (p - 2 - a.len)
            (pack ⟨b.len + a.len, true, false⟩)) (p - 2 + b.len - 2)
            (pack ⟨b.len + a.len, true, false⟩)) 4088 (pack ⟨8, false, true⟩),
          deallocations := st.deallocations + 1,
          l_coalesce := st.l_coalesce + 1,
          available := st.available + (b.len + a.len) } := by
        simp only [deallocate]
        rw [hbh, unpack_pack b.len false true hblen]
        rw [if_neg (by simp)]
        rw [if_neg (by simp [HEAP_SIZE, HEAP_ALIGN]; omega)]
        have hreadnb : readTag st.heap (p - 2 + b.len) = pack ⟨8, true, true⟩ := by
          rw [hend]; exact hepi
        rw [hreadnb, unpack_pack 8 true true (by norm_num)]
        rw [if_neg (by simp)]
        rw [if_pos (by simp)]
        rw [hafoot, unpack_pack a.len true false halen]
        rw [hputm]
        have hupd : update_p_alloc (writeTag (writeTag st.heap (p - 2 - a.len)
            (pack ⟨b.len + a.len, true, false⟩)) (p - 2 + b.len - 2)
            (pack ⟨b.len + a.len, true, false⟩)) (p - 2 - a.len)
            ⟨b.len + a.len, true, false⟩ =
            writeTag (writeTag (writeTag st.heap (p - 2 - a.len)
              (pack ⟨b.len + a.len, true, false⟩)) (p - 2 + b.len - 2)
              (pack ⟨b.len + a.len, true, false⟩)) 4088 (pack ⟨8, false, true⟩) := by
          simp only [update_p_alloc, HEAP_SIZE]
          rw [if_neg (by omega)]
          have he : p - 2 - a.len + (b.len + a.len) = p - 2 + b.len := by omega
          rw [he, hend]
          rw [readTag_writeTag, if_neg (by omega), readTag_writeTag, if_neg (by omega)]
          rw [hepi, unpack_pack 8 true true (by norm_num)]
          simp [put_boundaries, put_header]
        rw [hupd]
      rw [heq]
      refine ⟨l2 ++ [⟨b.len + a.len, false⟩], false, ?_, ?_, ?_,
        List.Nodup.erase p hnodup, ?_⟩
      · refine ReprSeg_append _ l2 [⟨b.len + a.len, false⟩] 0 (p - 2 - a.len) 4088
          true true false ?_ ?_
        · refine ReprSeg_frame st.heap _ l2 0 (p - 2 - a.len) true true hl2 ?_
          intro o ho1 ho2
          simp only [writeTag]
          rw [if_neg (by omega), if_neg (by omega), if_neg (by omega)]
        · rw [ReprSeg_cons_iff]
          refine ⟨?_, ?_, by show b.len + a.len ≠ 0; omega,
            by show (b.len + a.len) % 8 = 0; omega,
            by show p - 2 - a.len + (b.len + a.len) ≤ 4088; omega, ?_⟩
          · show readTag _ (p - 2 - a.len) = pack ⟨b.len + a.len, true, false⟩
            rw [readTag_writeTag, if_neg (by omega), readTag_writeTag, if_neg (by omega),
              readTag_writeTag, if_pos rfl, readTag_pack_mod]
          · intro _
            show readTag _ (p - 2 - a.len + (b.len + a.len) - 2) =
              pack ⟨b.len + a.len, true, false⟩
            have he : p - 2 - a.len + (b.len + a.len) - 2 = p - 2 + b.len - 2 := by omega
            rw [he, readTag_writeTag, if_neg (by omega), readTag_writeTag, if_pos rfl,
              readTag_pack_mod]
          · rw [ReprSeg_nil_iff]
            constructor
            · show p - 2 - a.len + (b.len + a.len) = 4088
              omega
            · rfl
      · show readTag _ 4088 = _
        rw [readTag_writeTag, if_pos rfl, readTag_pack_mod]
      · rw [noAdjFree_append]
        refine ⟨hadjl2, ?_⟩
        rw [hflag2, hp2true]
        rw [noAdjFree_cons_iff]
        exact ⟨Or.inr rfl, rfl⟩
      · intro q hq
        obtain ⟨hq2, hqne, hqs⟩ := hlive2 q hq
        refine ⟨hq2, ?_⟩
        rw [hstartsOld, hstartsL] at hqs
        have hstartsNew : allocStarts 0 (l2 ++ [(⟨b.len + a.len, false⟩ : Blk)]) =
            allocStarts 0 l2 := by
          rw [allocStarts_append]
          simp [allocStarts]
        rw [hstartsNew]
        rw [List.mem_append] at hqs
        rcases hqs with h | h
        · exact h
        · rw [List.mem_cons] at h
          rcases h with h | h
          · omega
          · simp [allocStarts] at h
    · -- the successor is a real block c
      rw [ReprSeg_cons_iff] at hrrest
      obtain ⟨hch, hcf, hcne, hclm, hcle, hcrest⟩ := hrrest
      have hclen : c.len < 16384 := by omega
      have hcub : p - 2 + b.len ≤ 4080 := by omega
      cases hca : c.alloc with
      | true =>
        -- case 2: left coalesce, successor allocated
        rw [hca] at hch hcrest
        have hputm : put_boundaries st.heap (p - 2 - a.len)
            (⟨b.len + a.len, true, false⟩ : boundary_t) =
            writeTag (writeTag st.heap (p - 2 - a.len) (pack ⟨b.len + a.len, true, false⟩))
              (p - 2 + b.len - 2) (pack ⟨b.len + a.len, true, false⟩) := by
          rw [put_bnd_free]
          have he : p - 2 - a.len + (b.len + a.len) - 2 = p - 2 + b.len - 2 := by omega
          rw [he]
        have heq : deallocate st (some p) = { st with
            heap := writeTag (writeTag (writeTag st.heap (p - 2 - a.len)
              (pack ⟨b.len + a.len, true, false⟩)) (p - 2 + b.len - 2)
              (pack ⟨b.len + a.len, true, false⟩)) (p - 2 + b.len)
              (pack ⟨c.len, false, true⟩),
            deallocations := st.deallocations + 1,
            l_coalesce := st.l_coalesce + 1,
            available := st.available + (b.len + a.len) } := by
          simp only [deallocate]
          rw [hbh, unpack_pack b.len false true hblen]
          rw [if_neg (by simp)]
          rw [if_neg (by simp [HEAP_SIZE, HEAP_ALIGN]; omega)]
          rw [hch, unpack_pack c.len true true hclen]
          rw [if_neg (by simp)]
          rw [if_pos (by simp)]
          rw [hafoot, unpack_pack a.len true false halen]
          rw [hputm]
          have hupd : update_p_alloc (writeTag (writeTag st.heap (p - 2 - a.len)
              (pack ⟨b.len + a.len, true, false⟩)) (p - 2 + b.len - 2)
              (pack ⟨b.len + a.len, true, false⟩)) (p - 2 - a.len)
              ⟨b.len + a.len, true, false⟩ =
              writeTag (writeTag (writeTag st.heap (p - 2 - a.len)
                (pack ⟨b.len + a.len, true, false⟩)) (p - 2 + b.len - 2)
                (pack ⟨b.len + a.len, true, false⟩)) (p - 2 + b.len)
                (pack ⟨c.len, false, true⟩) := by
            simp only [update_p_alloc, HEAP_SIZE]
            rw [if_neg (by omega)]
            have he : p - 2 - a.len + (b.len + a.len) = p - 2 + b.len := by omega
            rw [he]
            rw [readTag_writeTag, if_neg (by omega), readTag_writeTag, if_neg (by omega)]
            rw [hch, unpack_pack c.len true true hclen]
            simp [put_boundaries, put_header]
          rw [hupd]
        rw [heq]
        refine ⟨l2 ++ ⟨b.len + a.len, false⟩ :: ⟨c.len, true⟩ :: r2, pE, ?_, ?_, ?_,
          List.Nodup.erase p hnodup, ?_⟩
        · refine ReprSeg_append _ l2 (⟨b.len + a.len, false⟩ :: ⟨c.len, true⟩ :: r2) 0
            (p - 2 - a.len) 4088 true true pE ?_ ?_
          · refine ReprSeg_frame st.heap _ l2 0 (p - 2 - a.len) true true hl2 ?_
            intro o ho1 ho2
            simp only [writeTag]
            rw [if_neg (by omega), if_neg (by omega), if_neg (by omega)]
          · rw [ReprSeg_cons_iff]
            refine ⟨?_, ?_, by show b.len + a.len ≠ 0; omega,
              by show (b.len + a.len) % 8 = 0; omega,
              by show p - 2 - a.len + (b.len + a.len) ≤ 4088; omega, ?_⟩
            · show readTag _ (p - 2 - a.len) = pack ⟨b.len + a.len, true, false⟩
              rw [readTag_writeTag, if_neg (by omega), readTag_writeTag, if_neg (by omega),
                readTag_writeTag, if_pos rfl, readTag_pack_mod]
            · intro _
              show readTag _ (p - 2 - a.len + (b.len + a.len) - 2) =
                pack ⟨b.len + a.len, true, false⟩
              have he : p - 2 - a.len + (b.len + a.len) - 2 = p - 2 + b.len - 2 := by omega
              rw [he, readTag_writeTag, if_neg (by omega), readTag_writeTag, if_pos rfl,
                readTag_pack_mod]
            · rw [ReprSeg_cons_iff]
              have he : p - 2 - a.len + (b.len + a.len) = p - 2 + b.len := by omega
              rw [he]
              refine ⟨?_, by simp, by show c.len ≠ 0; exact hcne,
                by show c.len % 8 = 0; exact hclm,
                by show p - 2 + b.len + c.len ≤ 4088; omega, ?_⟩
              · show readTag _ (p - 2 + b.len) = pack ⟨c.len, false, true⟩
                rw [readTag_writeTag, if_pos rfl, readTag_pack_mod]
              · show ReprSeg _ (p - 2 + b.len + c.len) true r2 4088 pE = true
                refine ReprSeg_frame st.heap _ r2 (p - 2 + b.len + c.len) 4088 true pE hcrest ?_
                intro o ho1 ho2
                simp only [writeTag]
                rw [if_neg (by omega), if_neg (by omega), if_neg (by omega)]
        · show readTag _ 4088 = _
          rw [readTag_writeTag, if_neg (by omega), readTag_writeTag, if_neg (by omega),
            readTag_writeTag, if_neg (by omega)]
          exact hepi
        · rw [noAdjFree_append]
          refine ⟨hadjl2, ?_⟩
          rw [hflag2, hp2true]
          rw [noAdjFree_cons_iff]
          refine ⟨Or.inr rfl, ?_⟩
          rw [noAdjFree_cons_iff]
          refine ⟨Or.inl rfl, ?_⟩
          rw [noAdjFree_cons_iff] at hadjbr
          obtain ⟨_, hadjbr2⟩ := hadjbr
          rw [hballoc] at hadjbr2
          rw [noAdjFree_cons_iff] at hadjbr2
          have h9 := hadjbr2.2
          rw [hca] at h9
          exact h9
        · intro q hq
          obtain ⟨hq2, hqne, hqs⟩ := hlive2 q hq
          refine ⟨hq2, ?_⟩
          rw [hstartsOld, hstartsL] at hqs
          have hstartsNew : allocStarts 0 (l2 ++ ⟨b.len + a.len, false⟩ :: ⟨c.len, true⟩ :: r2) =
              allocStarts 0 l2 ++ ((p - 2 + b.len) :: allocStarts (p - 2 + b.len + c.len) r2) := by
            rw [allocStarts_append]
            have h1 : 0 + (l2.map Blk.len).sum = p - 2 - a.len := by
              have := ReprSeg_len st.heap l2 0 (p - 2 - a.len) true true hl2
              omega
            rw [h1]
            have h3 : p - 2 - a.len + (b.len + a.len) = p - 2 + b.len := by omega
            have h4 : p - 2 - a.len + (b.len + a.len) + c.len = p - 2 + b.len + c.len := by omega
            simp [allocStarts, h3, h4]
          have hstartsTail : allocStarts (p - 2 + b.len) (c :: r2) =
              (p - 2 + b.len) :: allocStarts (p - 2 + b.len + c.len) r2 := by
            simp [allocStarts, hca]
          rw [hstartsNew]
          rw [hstartsTail] at hqs
          rw [List.mem_append] at hqs ⊢
          rcases hqs with h | h
          · exact Or.inl h
          · rw [List.mem_cons] at h
            rcases h with h | h
            · omega
            · exact Or.inr h
      | false =>
        -- case 4: both neighbours free, coalesce to both sides
        rw [hca] at hch hcrest
        have hputm : put_boundaries st.heap (p - 2 - a.len)
            (⟨b.len + a.len + c.len, true, false⟩ : boundary_t) =
            writeTag (writeTag st.heap (p - 2 - a.len)
              (pack ⟨b.len + a.len + c.len, true, false⟩)) (p - 2 + b.len + c.len - 2)
              (pack ⟨b.len + a.len + c.len, true, false⟩) := by
          rw [put_bnd_free]
          have he : p - 2 - a.len + (b.len + a.len + c.len) - 2 =
            p - 2 + b.len + c.len - 2 := by omega
          rw [he]
        have heq : deallocate st (some p) = { st with
            heap := writeTag (writeTag st.heap (p - 2 - a.len)
              (pack ⟨b.len + a.len + c.len, true, false⟩)) (p - 2 + b.len + c.len - 2)
              (pack ⟨b.len + a.len + c.len, true, false⟩),
            deallocations := st.deallocations + 1,
            lr_coalesce := st.lr_coalesce + 1,
            available := st.available + (b.len + a.len + c.len) } := by
          simp only [deallocate]
          rw [hbh, unpack_pack b.len false true hblen]
          rw [if_neg (by simp)]
          rw [if_neg (by simp [HEAP_SIZE, HEAP_ALIGN]; omega)]
          rw [hch, unpack_pack c.len true false hclen]
          rw [if_neg (by simp)]
          rw [if_neg (by simp)]
          rw [if_neg (by simp)]
          rw [hafoot, unpack_pack a.len true false halen]
          rw [hputm]
        rw [heq]
        refine ⟨l2 ++ ⟨b.len + a.len + c.len, false⟩ :: r2, pE, ?_, ?_, ?_,
          List.Nodup.erase p hnodup, ?_⟩
        · refine ReprSeg_append _ l2 (⟨b.len + a.len + c.len, false⟩ :: r2) 0
            (p - 2 - a.len) 4088 true true pE ?_ ?_
          · refine ReprSeg_frame st.heap _ l2 0 (p - 2 - a.len) true true hl2 ?_
            intro o ho1 ho2
            simp only [writeTag]
            rw [if_neg (by omega), if_neg (by omega)]
          · rw [ReprSeg_cons_iff]
            refine ⟨?_, ?_, by show b.len + a.len + c.len ≠ 0; omega,
              by show (b.len + a.len + c.len) % 8 = 0; omega,
              by show p - 2 - a.len + (b.len + a.len + c.len) ≤ 4088; omega, ?_⟩
            · show readTag _ (p - 2 - a.len) = pack ⟨b.len + a.len + c.len, true, false⟩
              rw [readTag_writeTag, if_neg (by omega), readTag_writeTag, if_pos rfl,
                readTag_pack_mod]
            · intro _
              show readTag _ (p - 2 - a.len + (b.len + a.len + c.len) - 2) =
                pack ⟨b.len + a.len + c.len, true, false⟩
              have he : p - 2 - a.len + (b.len + a.len + c.len) - 2 =
                p - 2 + b.len + c.len - 2 := by omega
              rw [he, readTag_writeTag, if_pos rfl, readTag_pack_mod]
            · show ReprSeg _ (p - 2 - a.len + (b.len + a.len + c.len)) false r2 4088 pE = true
              have he : p - 2 - a.len + (b.len + a.len + c.len) = p - 2 + b.len + c.len := by
                omega
              rw [he]
              refine ReprSeg_frame st.heap _ r2 (p - 2 + b.len + c.len) 4088 false pE hcrest ?_
              intro o ho1 ho2
              simp only [writeTag]
              rw [if_neg (by omega), if_neg (by omega)]
        · show readTag _ 4088 = _
          rw [readTag_writeTag, if_neg (by omega), readTag_writeTag, if_neg (by omega)]
          exact hepi
        · rw [noAdjFree_append]
          refine ⟨hadjl2, ?_⟩
          rw [hflag2, hp2true]
          rw [noAdjFree_cons_iff]
          refine ⟨Or.inr rfl, ?_⟩
          rw [noAdjFree_cons_iff] at hadjbr
          obtain ⟨_, hadjbr2⟩ := hadjbr
          rw [hballoc] at hadjbr2
          rw [noAdjFree_cons_iff] at hadjbr2
          have h9 := hadjbr2.2
          rw [hca] at h9
          exact h9
        · intro q hq
          obtain ⟨hq2, hqne, hqs⟩ := hlive2 q hq
          refine ⟨hq2, ?_⟩
          rw [hstartsOld, hstartsL] at hqs
          have hstartsNew : allocStarts 0 (l2 ++ ⟨b.len + a.len + c.len, false⟩ :: r2) =
              allocStarts 0 l2 ++ allocStarts (p - 2 + b.len + c.len) r2 := by
            rw [allocStarts_append]
            have h1 : 0 + (l2.map Blk.len).sum = p - 2 - a.len := by
              have := ReprSeg_len st.heap l2 0 (p - 2 - a.len) true true hl2
              omega
            rw [h1]
            have h3 : p - 2 - a.len + (b.len + a.len + c.len) = p - 2 + b.len + c.len := by
              omega
            simp [allocStarts, h3]
          have hstartsTail : allocStarts (p - 2 + b.len) (c :: r2) =
              allocStarts (p - 2 + b.len + c.len) r2 := by
            simp [allocStarts, hca]
          rw [hstartsNew]
          rw [hstartsTail] at hqs
          rw [List.mem_append] at hqs ⊢
          rcases hqs with h | h
          · exact Or.inl h
          · rw [List.mem_cons] at h
            rcases h with h | h
            · omega
            · exact Or.inr h

/-! ## The reachability invariant -/

theorem ReprSeg_length_bound (h : Heap) :
    ∀ (bs : List Blk) (off e : Nat) (p pE : Bool),
      ReprSeg h off p bs e pE = true → 8 * bs.length + off ≤ e := by
  intro bs
  induction bs with
  | nil =>
    intro off e p pE hr
    rw [ReprSeg_nil_iff] at hr
    simp [hr.1]
  | cons b bs ih =>
    intro off e p pE hr
    rw [ReprSeg_cons_iff] at hr
    obtain ⟨_, _, hne, hlm, hle, hrest⟩ := hr
    have := ih (off + b.len) e b.alloc pE hrest
    simp only [List.length_cons]
    omega

/-- Every reachable state (with allocation requests bounded by 61438 and
deallocation applied only to live pointers) satisfies the full invariant. -/
theorem reach_good (s : allocator_t) (L : List Nat) (h : Reach s L) : GoodState s L := by
  induction h with
  | init =>
    refine ⟨[⟨4088, false⟩], false, by decide, by decide, by decide, List.nodup_nil, ?_⟩
    intro q hq
    simp at hq
  | @allocOk s L n s2 p _ hn halloc ih =>
    obtain ⟨bs, pE, hr, hepi, hadj, hnodup, hlive⟩ := ih
    have hlen : bs.length < 512 := by
      have := ReprSeg_length_bound s.heap bs 0 4088 true pE hr
      omega
    have hn0 : n ≠ 0 := by
      intro h0
      rw [h0] at halloc
      simp [allocate] at halloc
    obtain ⟨res, hgo, hres⟩ := allocGo_spec s pE bs 0 true n n 512 hr hepi
      (by simpa using hadj) (by norm_num) (Or.inl ⟨rfl, hn⟩) hlen
    have hallocEq : allocate s n = res := by
      rw [allocate, if_neg hn0, hgo]
      rfl
    rw [hallocEq] at halloc
    rcases hres with rfl | ⟨st2, q, rfl, hq8, hq2, hframe, bs2, pE2, hr2, hepi2, hadj2,
        hstarts, hqin, hqout⟩
    · exact absurd (congrArg Prod.snd halloc) (by simp)
    · have hs2 : st2 = s2 := congrArg Prod.fst halloc
      have hpq : q = p := by
        have := congrArg Prod.snd halloc
        simpa using this
      subst hs2 hpq
      refine ⟨bs2, pE2, hr2, hepi2, by simpa using hadj2, ?_, ?_⟩
      · rw [List.nodup_cons]
        refine ⟨?_, hnodup⟩
        intro hqL
        exact hqout ((hlive q hqL).2)
      · intro q2 hq2mem
        rw [List.mem_cons] at hq2mem
        rcases hq2mem with rfl | hq2mem
        · exact ⟨by omega, hqin⟩
        · obtain ⟨hge, hmem⟩ := hlive q2 hq2mem
          exact ⟨hge, hstarts _ hmem⟩
  | @allocFail s L n s2 _ hn halloc ih =>
    obtain ⟨bs, pE, hr, hepi, hadj, hnodup, hlive⟩ := ih
    by_cases hn0 : n = 0
    · rw [hn0] at halloc
      have h1 := congrArg Prod.fst halloc
      simp [allocate] at h1
      rw [← h1]
      exact ⟨bs, pE, hr, hepi, hadj, hnodup, hlive⟩
    · have hlen : bs.length < 512 := by
        have := ReprSeg_length_bound s.heap bs 0 4088 true pE hr
        omega
      obtain ⟨res, hgo, hres⟩ := allocGo_spec s pE bs 0 true n n 512 hr hepi
        (by simpa using hadj) (by norm_num) (Or.inl ⟨rfl, hn⟩) hlen
      have hallocEq : allocate s n = res := by
        rw [allocate, if_neg hn0, hgo]
        rfl
      rw [hallocEq] at halloc
      rcases hres with rfl | ⟨st2, q, rfl, _⟩
      · have : s2 = s := (congrArg Prod.fst halloc).symm
        rw [this]
        exact ⟨bs, pE, hr, hepi, hadj, hnodup, hlive⟩
      · exact absurd (congrArg Prod.snd halloc) (by simp)
  | @dealloc s L p _ hpL ih =>
    exact deallocate_spec s L p ih hpL

/-! ## The integrity checker -/

theorem checkGo_of_good (h : Heap) (pE : Bool) (hepi : readTag h 4088 = pack ⟨8, pE, true⟩) :
    ∀ (bs : List Blk) (off : Nat) (p : Bool) (fuel : Nat),
      ReprSeg h off p bs 4088 pE = true →
      bs.length + 2 ≤ fuel →
      checkGo h off p fuel = true := by
  intro bs
  induction bs with
  | nil =>
    intro off p fuel hr hfuel
    rw [ReprSeg_nil_iff] at hr
    obtain ⟨rfl, rfl⟩ := hr
    obtain ⟨f, rfl⟩ : ∃ f, fuel = f + 1 := ⟨fuel - 1, by omega⟩
    obtain ⟨f2, rfl⟩ : ∃ f2, f = f2 + 1 := ⟨f - 1, by omega⟩
    simp [checkGo, HEAP_SIZE, HEAP_ALIGN, hepi, unpack_pack 8 p true (by norm_num)]
  | cons b bs ih =>
    intro off p fuel hr hfuel
    rw [ReprSeg_cons_iff] at hr
    obtain ⟨hh, hf, hne, hlm, hle, hrest⟩ := hr
    have hblen : b.len < 16384 := by omega
    obtain ⟨f, rfl⟩ : ∃ f, fuel = f + 1 := ⟨fuel - 1, by omega⟩
    have hrec := ih (off + b.len) b.alloc f hrest (by simpa using hfuel)
    simp only [checkGo]
    rw [if_pos (by norm_num [HEAP_SIZE]; omega)]
    cases hba : b.alloc with
    | true =>
      rw [hba] at hrec hh
      simp [HEAP_ALIGN, hh, unpack_pack b.len p true hblen, hrec, hne, hlm]
    | false =>
      rw [hba] at hrec hh hf
      have hfoot := hf rfl
      simp [HEAP_ALIGN, hh, unpack_pack b.len p false hblen, hrec, hne, hlm, hfoot]

theorem checkGo_fuel_step (h : Heap) :
    ∀ (fuel current : Nat) (p : Bool),
      4096 - current < fuel →
      checkGo h current p fuel = checkGo h current p (fuel + 1) := by
  intro fuel
  induction fuel with
  | zero => intro current p hf; omega
  | succ f ih =>
    intro current p hf
    by_cases hc : current < HEAP_SIZE
    · by_cases hz : (unpack (readTag h current)).length = 0
      · simp only [checkGo]
        rw [if_pos hc, if_pos hc]
        simp [hz]
      · have hstep : 4096 - (current + (unpack (readTag h current)).length) < f := by
          simp [HEAP_SIZE] at hc
          omega
        simp only [checkGo]
        rw [if_pos hc, if_pos hc]
        rw [ih (current + (unpack (readTag h current)).length)
          (unpack (readTag h current)).alloc hstep]
        rfl
    · simp only [checkGo]
      rw [if_neg hc, if_neg hc]

/-! ## Helper lemmas for the misuse claims -/

/-- After writing a free block's boundaries at `m`, the tag at `m` reads as
free, whatever the length (the header and the possibly-colliding footer both
carry a cleared alloc bit). -/
theorem alloc_bit_put_free (h : Heap) (m L : Nat) (P : Bool) :
    (unpack (readTag (put_boundaries h m ⟨L, P, false⟩) m)).alloc = false := by
  rw [put_bnd_free]
  rw [readTag_writeTag]
  by_cases hcol : m = m + L - 2
  · rw [if_pos hcol, readTag_pack_mod]
    exact unpack_pack_alloc ⟨L, P, false⟩
  · rw [if_neg hcol, readTag_writeTag, if_pos rfl, readTag_pack_mod]
    exact unpack_pack_alloc ⟨L, P, false⟩

/-- Same after additionally propagating the cleared alloc bit to the
successor: the freed block's header still reads as free. -/
theorem alloc_bit_after_free (h : Heap) (m L : Nat) (P : Bool) :
    (unpack (readTag (update_p_alloc (put_boundaries h m ⟨L, P, false⟩) m
      ⟨L, P, false⟩) m)).alloc = false := by
  simp only [update_p_alloc, HEAP_SIZE]
  by_cases hend : 4096 ≤ m + (⟨L, P, false⟩ : boundary_t).length
  · rw [if_pos hend]
    exact alloc_bit_put_free h m L P
  · rw [if_neg hend]
    by_cases hL0 : L = 0
    · -- the successor read aliases the freed header itself
      have hsame : (unpack (readTag (put_boundaries h m ⟨L, P, false⟩)
          (m + (⟨L, P, false⟩ : boundary_t).length))).alloc = false := by
        show (unpack (readTag (put_boundaries h m ⟨L, P, false⟩) (m + L))).alloc = false
        rw [hL0]
        simpa using alloc_bit_put_free h m 0 P
      rcases hn : unpack (readTag (put_boundaries h m ⟨L, P, false⟩)
          (m + (⟨L, P, false⟩ : boundary_t).length)) with ⟨nl, np, na⟩
      rw [hn] at hsame
      simp at hsame
      rw [hsame]
      rw [put_bnd_free]
      rw [readTag_writeTag]
      by_cases h1 : m = m + (⟨L, P, false⟩ : boundary_t).length + nl - 2
      · rw [if_pos h1, readTag_pack_mod]
        exact unpack_pack_alloc ⟨nl, false, false⟩
      · rw [if_neg h1, readTag_writeTag]
        by_cases h2 : m = m + (⟨L, P, false⟩ : boundary_t).length
        · rw [if_pos h2, readTag_pack_mod]
          exact unpack_pack_alloc ⟨nl, false, false⟩
        · rw [if_neg h2]
          exact alloc_bit_put_free h m L P
    · rcases hn : unpack (readTag (put_boundaries h m ⟨L, P, false⟩)
          (m + (⟨L, P, false⟩ : boundary_t).length)) with ⟨nl, np, na⟩
      cases na with
      | true =>
        rw [put_bnd_alloc]
        rw [readTag_writeTag, if_neg (by show m ≠ m + L; omega)]
        exact alloc_bit_put_free h m L P
      | false =>
        rw [put_bnd_free]
        rw [readTag_writeTag]
        by_cases h1 : m = m + (⟨L, P, false⟩ : boundary_t).length + nl - 2
        · rw [if_pos h1, readTag_pack_mod]
          exact unpack_pack_alloc ⟨nl, false, false⟩
        · rw [if_neg h1, readTag_writeTag, if_neg (by show m ≠ m + L; omega)]
          exact alloc_bit_put_free h m L P

/-- Deallocating a pointer whose header tag is already clear is a no-op. -/
theorem dealloc_free_noop (st : allocator_t) (q : Nat)
    (h : (unpack (readTag st.heap (q - 2))).alloc = false) :
    deallocate st (some q) = st := by
  simp only [deallocate]
  rw [if_pos h]

/-! ## Claim theorems -/

/-- The heap states of the concrete claim-2 trace: allocate 6, 6, 14, 6
(blocks of 8, 8, 16 and 8 bytes at offsets 0, 8, 16, 32), then free the
16-byte block (payload pointer 18) and the first 8-byte block (pointer 2),
leaving the layout free 8 at 0, allocated 8 at 8, free 16 at 16, allocated
8 at 32, free 4048 at 40. -/
def c2s1 : allocator_t := (allocate allocator_init 6).1

def c2s2 : allocator_t := (allocate c2s1 6).1

def c2s3 : allocator_t := (allocate c2s2 14).1

def c2s4 : allocator_t := (allocate c2s3 6).1

def c2s5 : allocator_t := deallocate c2s4 (some 18)

def c2s6 : allocator_t := deallocate c2s5 (some 2)

/-- Claim 2, settled as a code bug.  The required length for a request of 9
is round-up(9+2, 8) = 16, and the heap `c2s6` holds a free block of exactly
16 bytes at offset 16 (the first sufficiently large free block, so first-fit
must return payload pointer 18 and carve 16 bytes).  The code instead
returns pointer 42, carving a 32-byte block at offset 40: the loop reassigns
`length = pad_length(length + 2)` at every free block it passes, so the
threshold inflates from 16 to 24 at the free block at offset 16 and to 32 at
the free block at offset 40. -/
theorem claim2_first_fit_bug :
    pad_length (9 + 2) = 16 ∧
    readTag c2s6.heap 0 = pack ⟨8, true, false⟩ ∧
    readTag c2s6.heap 16 = pack ⟨16, true, false⟩ ∧
    (allocate c2s6 9).2 = some 42 ∧
    readTag (allocate c2s6 9).1.heap 40 = pack ⟨32, true, true⟩ := by
  decide

def c3s1 : allocator_t := (allocate allocator_init 6).1

def c3s2 : allocator_t := (allocate c3s1 6).1

def c3s3 : allocator_t := deallocate c3s2 (some 2)

def c3s4 : allocator_t := deallocate c3s3 (some 10)

/-- Claim 3, settled as a code bug.  After two allocations and the two
matching deallocations there are no live pointers, so conservation demands
`available = HEAP_SIZE - HEAP_ALIGN = 4088`; the code reports 8168, because
`deallocate` adds the merged block's length (here 4088, absorbing the
already-free neighbours) to `available` instead of the freed block's own
length.  The count conjunct (allocations = deallocations = 2) holds. -/
theorem claim3_conservation_bug :
    c3s4.allocations = 2 ∧ c3s4.deallocations = 2 ∧
    c3s4.available = 8168 ∧ c3s4.available ≠ HEAP_SIZE - HEAP_ALIGN := by
  decide

def c4s1 : allocator_t := (allocate allocator_init 6).1

def c4s2 : allocator_t := (allocate c4s1 6).1

def c4s3 : allocator_t := deallocate c4s2 (some 2)

def c4s4 : allocator_t := deallocate c4s3 (some 10)

/-- Counterexample to claim 4: deallocate is applied twice to pointer 10 in
a reachable state (allocate 6, allocate 6, free 2, free 10).  The first free
of 10 coalesces to both sides, writing the merged header at offset 0 and
leaving the stale header at offset 8 marked allocated, so the second free of
10 is NOT a no-op: it bumps deallocations, lr_coalesce and available. -/
theorem claim4_counterexample :
    (deallocate c4s4 (some 10)).deallocations = 3 ∧ c4s4.deallocations = 2 ∧
    (deallocate c4s4 (some 10)).lr_coalesce = 2 ∧ c4s4.lr_coalesce = 1 ∧
    (deallocate c4s4 (some 10)).available = 12256 ∧ c4s4.available = 8168 := by
  decide

def c6s1 : allocator_t := (allocate allocator_init 1014).1

def c6s2 : allocator_t := (allocate c6s1 1014).1

def c6s3 : allocator_t := (allocate c6s2 1014).1

def c6s4 : allocator_t := (allocate c6s3 1014).1

def c6s5 : allocator_t := (allocate c6s4 22).1

def c6d1 : allocator_t := deallocate c6s5 (some 2)

def c6d2 : allocator_t := deallocate c6d1 (some 1018)

def c6d3 : allocator_t := deallocate c6d2 (some 2034)

def c6d4 : allocator_t := deallocate c6d3 (some 3050)

def c6d5 : allocator_t := deallocate c6d4 (some 4066)

/-- Claim 6: the concrete reference scenario.  Four allocations of 1014
bytes produce 1016-byte blocks at offsets 0, 1016, 2032, 3048; the fifth
allocation of 22 bytes produces the 24-byte block at 4064 and exhausts the
heap (available = 0); any further positive request returns no allocation;
deallocating the five pointers in ascending address order triggers exactly
four left coalesces (and no right or left-right coalesce) and restores the
single 4088-byte free block followed by the untouched epilogue. -/
theorem claim6_scenario :
    ((allocate allocator_init 1014).2 = some 2 ∧
      (allocate c6s1 1014).2 = some 1018 ∧
      (allocate c6s2 1014).2 = some 2034 ∧
      (allocate c6s3 1014).2 = some 3050 ∧
      (allocate c6s4 22).2 = some 4066 ∧
      readTag c6s5.heap 0 = pack ⟨1016, true, true⟩ ∧
      readTag c6s5.heap 1016 = pack ⟨1016, true, true⟩ ∧
      readTag c6s5.heap 2032 = pack ⟨1016, true, true⟩ ∧
      readTag c6s5.heap 3048 = pack ⟨1016, true, true⟩ ∧
      readTag c6s5.heap 4064 = pack ⟨24, true, true⟩ ∧
      c6s5.available = 0 ∧
      c6d1.l_coalesce = 0 ∧ c6d2.l_coalesce = 1 ∧ c6d3.l_coalesce = 2 ∧
      c6d4.l_coalesce = 3 ∧ c6d5.l_coalesce = 4 ∧
      c6d5.r_coalesce = 0 ∧ c6d5.lr_coalesce = 0 ∧
      readTag c6d5.heap 0 = pack ⟨4088, true, false⟩ ∧
      readTag c6d5.heap 4086 = pack ⟨4088, true, false⟩ ∧
      readTag c6d5.heap 4088 = pack ⟨8, false, true⟩) ∧
    ∀ k, 1 ≤ k → allocate c6s5 k = (c6s5, none) := by
  constructor
  · decide
  · intro k hk
    rw [allocate, if_neg (by omega)]
    rw [allocGo_allAlloc c6s5 true
      [⟨1016, true⟩, ⟨1016, true⟩, ⟨1016, true⟩, ⟨1016, true⟩, ⟨24, true⟩]
      0 true k 512 (by decide) (by decide) (by norm_num)]
    rfl

/-- Claim 6 witness: the sixth allocation is refused for request length 1. -/
theorem claim6_witness : allocate c6s5 1 = (c6s5, none) :=
  claim6_scenario.2 1 (by norm_num)

/-- Claim 7: init and reset both write exactly the contractual layout: a
free block of 4088 bytes at offset 0 tagged prev_allocated, not allocated,
with byte-identical header (offset 0) and footer (offset 4086), followed by
the epilogue of length 8 at offset 4088 tagged not-prev-allocated,
allocated; tags are packed as length in the high bits, prev_allocated in
bit 1 and allocated in bit 0; init is exactly reset applied to a fresh
zeroed region. -/
theorem claim7_layout : ∀ a : allocator_t,
    readTag (allocator_reset a).heap 0 = pack ⟨4088, true, false⟩ ∧
    readTag (allocator_reset a).heap 4086 = pack ⟨4088, true, false⟩ ∧
    readTag (allocator_reset a).heap 4088 = pack ⟨8, false, true⟩ ∧
    pack ⟨4088, true, false⟩ = 4088 * 4 + 1 * 2 + 0 ∧
    pack ⟨8, false, true⟩ = 8 * 4 + 0 * 2 + 1 ∧
    allocator_init = allocator_reset
      { heap := fun _ => 0, available := 0, allocations := 0, deallocations := 0,
        l_coalesce := 0, r_coalesce := 0, lr_coalesce := 0 } := by
  intro a
  have hh : (allocator_reset a).heap =
      writeTag (writeTag (writeTag a.heap 0 (pack ⟨4088, true, false⟩)) 4086
        (pack ⟨4088, true, false⟩)) 4088 (pack ⟨8, false, true⟩) := by
    show put_boundaries (put_boundaries a.heap 0 ⟨HEAP_SIZE - HEAP_ALIGN, true, false⟩)
      (HEAP_SIZE - HEAP_ALIGN) ⟨HEAP_ALIGN, false, true⟩ = _
    rw [show HEAP_SIZE - HEAP_ALIGN = 4088 from by norm_num [HEAP_SIZE, HEAP_ALIGN],
      show HEAP_ALIGN = (8 : Nat) from rfl, put_bnd_free, put_bnd_alloc]
  refine ⟨?_, ?_, ?_, by decide, by decide, rfl⟩
  · rw [hh, readTag_writeTag, if_neg (by norm_num), readTag_writeTag, if_neg (by norm_num),
      readTag_writeTag, if_pos rfl, readTag_pack_mod]
  · rw [hh, readTag_writeTag, if_neg (by norm_num), readTag_writeTag, if_pos rfl,
      readTag_pack_mod]
  · rw [hh, readTag_writeTag, if_pos rfl, readTag_pack_mod]

/-- Counterexample to claim 8: after reset the available-bytes statistic is
4088, not 0 — the claim that all six counters are zero is false. -/
theorem claim8_counterexample : ¬ (allocator_reset allocator_init).available = 0 := by
  decide

/-- Claim 8 amended: reset zeroes the five event counters and sets the
available-bytes statistic to the full non-epilogue capacity 4088. -/
theorem claim8_amended : ∀ a : allocator_t,
    (allocator_reset a).allocations = 0 ∧ (allocator_reset a).deallocations = 0 ∧
    (allocator_reset a).l_coalesce = 0 ∧ (allocator_reset a).r_coalesce = 0 ∧
    (allocator_reset a).lr_coalesce = 0 ∧
    (allocator_reset a).available = HEAP_SIZE - HEAP_ALIGN :=
  fun _ => ⟨rfl, rfl, rfl, rfl, rfl, rfl⟩

/-- Counterexample to claim 1 as stated: the request length 65533 is a
legal `uint16` argument, but the 16-bit computation
`pad_length(65533 + 2) = 0` makes `allocate` carve a zero-length allocated
block at offset 0 (its header reads `pack ⟨0, true, true⟩ = 3`), violating
invariant 2 (every block length is positive): no block list can represent
the resulting heap. -/
theorem claim1_counterexample :
    (allocate allocator_init 65533).2 = some 2 ∧
    ¬ HeapGood (allocate allocator_init 65533).1.heap := by
  constructor
  · decide
  · rintro ⟨bs, pE, hr, -, -⟩
    have hread : readTag (allocate allocator_init 65533).1.heap 0 = 3 := by decide
    cases bs with
    | nil =>
      rw [ReprSeg_nil_iff] at hr
      exact absurd hr.1 (by norm_num)
    | cons b bs2 =>
      rw [ReprSeg_cons_iff] at hr
      obtain ⟨hh, -, hne, hlm, hle, -⟩ := hr
      rw [hread] at hh
      have hlt : b.len < 16384 := by omega
      cases hba : b.alloc with
      | true =>
        rw [hba] at hh
        simp [pack, Nat.mod_eq_of_lt hlt] at hh
        omega
      | false =>
        rw [hba] at hh
        simp [pack, Nat.mod_eq_of_lt hlt] at hh

/-- Claim 1 amended: for every sequence of operations from the initialized
heap in which deallocate is applied only to live pointers and every
allocation request is at most 61438 (so the 16-bit required-length
computation can never wrap to zero), all six structural invariants hold
after every operation: the blocks tile [0, 4088) exactly (ReprSeg),
every length is positive and a multiple of 8, every header's
prev-allocated flag matches its predecessor's allocated flag, free blocks
have byte-identical header and footer, the epilogue keeps length 8 and
allocated flag set, and no two adjacent blocks are free. -/
theorem claim1_invariants : ∀ (s : allocator_t) (L : List Nat),
    Reach s L → HeapGood s.heap := by
  intro s L h
  obtain ⟨bs, pE, h1, h2, h3, -, -⟩ := reach_good s L h
  exact ⟨bs, pE, h1, h2, h3⟩

/-- Claim 1 witness: the initialized heap satisfies the invariants. -/
theorem claim1_witness : HeapGood allocator_init.heap :=
  claim1_invariants allocator_init [] Reach.init

/-- Claim 4 amended: deallocating NULL, deallocating a block whose header
tag already reads free, deallocating the epilogue (payload offset 4090) and
a zero-length allocation request are all exact no-ops on the whole state;
and a second deallocate of the same pointer is a no-op provided the block's
prev-allocated bit was set when it was freed (no-coalesce and
right-coalesce cases, which clear the header's alloc bit in place).  The
counterexample shows the remaining cases (left and left-right coalesce,
prev-allocated bit clear) really do mutate the counters on a double free. -/
theorem claim4_amended :
    (∀ st : allocator_t, deallocate st none = st) ∧
    (∀ (st : allocator_t) (q : Nat), (unpack (readTag st.heap (q - 2))).alloc = false →
      deallocate st (some q) = st) ∧
    (∀ st : allocator_t, deallocate st (some 4090) = st) ∧
    (∀ st : allocator_t, allocate st 0 = (st, none)) ∧
    (∀ (st : allocator_t) (q : Nat), 2 ≤ q →
      (unpack (readTag st.heap (q - 2))).p_alloc = true →
      deallocate (deallocate st (some q)) (some q) = deallocate st (some q)) := by
  refine ⟨fun st => rfl, fun st q h => dealloc_free_noop st q h, ?_, fun st => by
    simp [allocate], ?_⟩
  · intro st
    by_cases h : (unpack (readTag st.heap (4090 - 2))).alloc = false
    · exact dealloc_free_noop st 4090 h
    · simp only [deallocate]
      rw [if_neg h,
        if_pos (show (4090 : Nat) - 2 = HEAP_SIZE - HEAP_ALIGN by norm_num [HEAP_SIZE, HEAP_ALIGN])]
  · intro st q hq2 hpa
    by_cases hba : (unpack (readTag st.heap (q - 2))).alloc = false
    · rw [dealloc_free_noop st q hba, dealloc_free_noop st q hba]
    · by_cases hep : q - 2 = HEAP_SIZE - HEAP_ALIGN
      · have hfix : deallocate st (some q) = st := by
          simp only [deallocate]
          rw [if_neg hba, if_pos hep]
        rw [hfix, hfix]
      · rcases hb : unpack (readTag st.heap (q - 2)) with ⟨bl, bp, ba⟩
        rw [hb] at hba hpa
        simp only at hba hpa
        have hba2 : ba = true := by
          cases ba
          · exact absurd rfl hba
          · rfl
        rw [hpa, hba2] at hb
        cases hnb : (unpack (readTag st.heap (q - 2 + bl))).alloc with
        | true =>
          have heq1 : deallocate st (some q) = { st with
              heap := update_p_alloc (put_boundaries st.heap (q - 2) ⟨bl, true, false⟩)
                (q - 2) ⟨bl, true, false⟩,
              deallocations := st.deallocations + 1,
              available := st.available + bl } := by
            simp only [deallocate]
            rw [hb]
            rw [if_neg (by simp)]
            rw [if_neg hep]
            rw [if_pos (by simp [hnb])]
          rw [heq1]
          exact dealloc_free_noop _ q (alloc_bit_after_free st.heap (q - 2) bl true)
        | false =>
          rcases hnbfull : unpack (readTag st.heap (q - 2 + bl)) with ⟨nl, np, na⟩
          rw [hnbfull] at hnb
          simp only at hnb
          have heq1 : deallocate st (some q) = { st with
              heap := put_boundaries st.heap (q - 2) ⟨bl + nl, true, false⟩,
              deallocations := st.deallocations + 1,
              r_coalesce := st.r_coalesce + 1,
              available := st.available + (bl + nl) } := by
            simp only [deallocate]
            rw [hb, hnbfull, hnb]
            rw [if_neg (by simp)]
            rw [if_neg hep]
            rw [if_neg (by simp)]
            rw [if_neg (by simp)]
            rw [if_pos (by simp)]
          rw [heq1]
          exact dealloc_free_noop _ q (alloc_bit_put_free st.heap (q - 2) (bl + nl) true)

/-- Claim 4 witness, exercising the double-free part of the amended claim
on a concrete state: the first block of the initialized heap is allocated
(request 6, payload pointer 2, prev-allocated bit set), so deallocating it
twice equals deallocating it once. -/
theorem claim4_witness :
    deallocate (deallocate (allocate allocator_init 6).1 (some 2)) (some 2) =
      deallocate (allocate allocator_init 6).1 (some 2) :=
  claim4_amended.2.2.2.2 (allocate allocator_init 6).1 2 (by norm_num) (by decide)

/-- Counterexample to claim 5 as stated: the initialized heap's only free
block has length 4088, which is smaller than the mathematical required
length round-up(65533 + 2, 8) = 65536, so the claim demands "no
allocation"; the code returns payload pointer 2, because the 16-bit
computation `pad_length((65533 + 2) % 2^16)` wraps to 0 and every free
block "fits" a zero-length request. -/
theorem claim5_counterexample :
    ReprSeg allocator_init.heap 0 true [⟨4088, false⟩] 4088 false = true ∧
    4088 < 65536 ∧
    (allocate allocator_init 65533).2 = some 2 := by
  decide

/-- Claim 5 amended: for requests of at least 1 and at most 61438 (so the
16-bit required-length computation never wraps), if every free block of the
represented heap is smaller than the required length
`pad_length (n + 2) = round-up(n + 2, 8)`, allocate returns no allocation
and leaves the entire state untouched. -/
theorem claim5_oom : ∀ (st : allocator_t) (bs : List Blk) (pE : Bool) (n : Nat),
    1 ≤ n → n ≤ 61438 →
    ReprSeg st.heap 0 true bs 4088 pE = true →
    (∀ b ∈ bs, b.alloc = false → b.len < pad_length (n + 2)) →
    allocate st n = (st, none) := by
  intro st bs pE n h1 h61 hr hfree
  have hlen : bs.length < 512 := by
    have := ReprSeg_length_bound st.heap bs 0 4088 true pE hr
    omega
  rw [allocate, if_neg (by omega)]
  rw [allocGo_none st pE n h61 bs 0 true n 512 hr hfree (Or.inl rfl) hlen]
  rfl

/-- Claim 5 witness: a request of 4087 (required length 4096) exceeds the
single 4088-byte free block of the initialized heap, so allocate returns no
allocation and the state is unchanged. -/
theorem claim5_witness : allocate allocator_init 4087 = (allocator_init, none) :=
  claim5_oom allocator_init [⟨4088, false⟩] false 4087 (by norm_num) (by norm_num)
    (by decide) (by decide)

/-- Claim 9: on every heap satisfying the invariants, the allocate loop
terminates within fuel 512 for every request value, the integrity checker
accepts the heap within its fuel bound, and the checker's result is
independent of any fuel of at least 4097 (each loop iteration advances the
cursor by the block's positive length, and the walk is bounded by the heap
size).  `deallocate` is loop-free and total by construction. -/
theorem claim9_termination : ∀ st : allocator_t, HeapGood st.heap →
    (∀ v, (allocateGo st 0 v 512).isSome = true) ∧
    allocator_check st = true ∧
    (∀ f, 4097 ≤ f → checkGo st.heap 0 true f = allocator_check st) := by
  rintro st ⟨bs, pE, hr, hepi, hadj⟩
  have hlen : bs.length < 512 := by
    have := ReprSeg_length_bound st.heap bs 0 4088 true pE hr
    omega
  refine ⟨fun v => allocGo_total st pE bs 0 true v 512 hr hlen, ?_, ?_⟩
  · exact checkGo_of_good st.heap pE hepi bs 0 true 4097 hr (by omega)
  · intro f hf
    show checkGo st.heap 0 true f = checkGo st.heap 0 true 4097
    induction f, hf using Nat.le_induction with
    | base => rfl
    | succ f hf ih =>
      rw [← checkGo_fuel_step st.heap f 0 true (by omega)]
      exact ih

/-- Claim 9 witness: the initialized heap passes the checker. -/
theorem claim9_witness : allocator_check allocator_init = true :=
  (claim9_termination allocator_init
    ⟨[⟨4088, false⟩], false, by decide, by decide, by decide⟩).2.1

/-- The allocate loop only ever hands out payload pointers of the form
block-start + 2, and on a represented heap the walk stays on 8-aligned
block starts, whatever the request value (even one whose 16-bit required
length wraps). -/
theorem allocGo_align (st : allocator_t) (pE : Bool) :
    ∀ (bs : List Blk) (off : Nat) (p : Bool) (v fuel : Nat)
      (res : allocator_t × Option Nat),
      ReprSeg st.heap off p bs 4088 pE = true →
      off % 8 = 0 →
      bs.length < fuel →
      allocateGo st off v fuel = some res →
      ∀ q, res.2 = some q → q % 8 = 2 := by
  intro bs
  induction bs with
  | nil =>
    intro off p v fuel res hr hmod hfuel hgo q hq
    rw [ReprSeg_nil_iff] at hr
    obtain ⟨rfl, rfl⟩ := hr
    obtain ⟨f, rfl⟩ : ∃ f, fuel = f + 1 := ⟨fuel - 1, by omega⟩
    rw [allocateGo, if_neg (by norm_num [HEAP_SIZE, HEAP_ALIGN])] at hgo
    obtain rfl := Option.some.inj hgo
    simp at hq
  | cons b bs ih =>
    intro off p v fuel res hr hmod hfuel hgo q hq
    rw [ReprSeg_cons_iff] at hr
    obtain ⟨hh, hf, hne, hlm, hle, hrest⟩ := hr
    have hblen : b.len < 16384 := by omega
    obtain ⟨f, rfl⟩ : ∃ f, fuel = f + 1 := ⟨fuel - 1, by omega⟩
    have hfuel2 : bs.length < f := by simpa using hfuel
    rw [allocateGo, if_pos (by norm_num [HEAP_SIZE, HEAP_ALIGN]; omega)] at hgo
    simp only [hh, unpack_pack b.len p b.alloc hblen] at hgo
    cases hba : b.alloc with
    | true =>
      rw [hba] at hgo
      simp only [if_true] at hgo
      exact ih (off + b.len) b.alloc v f res hrest (by omega) hfuel2 hgo q hq
    | false =>
      rw [hba] at hgo
      simp only [Bool.false_eq_true, if_false] at hgo
      by_cases hsmall : b.len < pad_length ((v + 2) % 65536)
      · rw [if_pos hsmall] at hgo
        exact ih (off + b.len) b.alloc _ f res hrest (by omega) hfuel2 hgo q hq
      · rw [if_neg hsmall] at hgo
        by_cases hfit : b.len - pad_length ((v + 2) % 65536) ≤ 4
        · rw [if_pos hfit] at hgo
          obtain rfl := Option.some.inj hgo
          simp at hq
          omega
        · rw [if_neg hfit] at hgo
          obtain rfl := Option.some.inj hgo
          simp at hq
          omega

/-- Claim 10: on every heap satisfying the structural invariants, a
successful allocate returns a payload pointer congruent to 2 modulo 8
(one 2-byte tag width past an 8-aligned block start) — in particular the
payload is never aligned to the 8-byte alignment unit itself. -/
theorem claim10_alignment : ∀ (st s2 : allocator_t) (n q : Nat),
    HeapGood st.heap → allocate st n = (s2, some q) → q % 8 = 2 ∧ q % 8 ≠ 0 := by
  rintro st s2 n q ⟨bs, pE, hr, hepi, hadj⟩ halloc
  by_cases hn0 : n = 0
  · rw [hn0] at halloc
    have := congrArg Prod.snd halloc
    simp [allocate] at this
  · have hlen : bs.length < 512 := by
      have := ReprSeg_length_bound st.heap bs 0 4088 true pE hr
      omega
    have htot := allocGo_total st pE bs 0 true n 512 hr hlen
    obtain ⟨res, hres⟩ : ∃ res, allocateGo st 0 n 512 = some res := by
      cases hgo : allocateGo st 0 n 512 with
      | none => rw [hgo] at htot; simp at htot
      | some r => exact ⟨r, rfl⟩
    have hal : allocate st n = res := by
      rw [allocate, if_neg hn0, hres]
      rfl
    rw [hal] at halloc
    have h2 := allocGo_align st pE bs 0 true n 512 res hr (by norm_num) hlen hres q
      (by rw [halloc])
    exact ⟨h2, by omega⟩

/-- Claim 10 witness: the first allocation from the initialized heap
returns payload pointer 2, and 2 % 8 = 2 ≠ 0. -/
theorem claim10_witness : (2 : Nat) % 8 = 2 ∧ (2 : Nat) % 8 ≠ 0 :=
  claim10_alignment allocator_init (allocate allocator_init 6).1 6 2
    ⟨[⟨4088, false⟩], false, by decide, by decide, by decide⟩
    (by
      rw [show (some 2 : Option Nat) = (allocate allocator_init 6).2 from by decide])
